import Mathlib

/-!
Shallow embedding of `robotplanner.py`: the `Vector2` coordinate pair, the
list-based `PriorityQueue` (stable sort on priority, then pop of the head),
the `World` grid with Python list indexing (negative indices wrap, an
out-of-range index raises, modelled as `none`), the `a_star` search loop and
its parent-map path reconstruction, and the directional encoder of the CLI
layer.  Machine integers are `Int`/`Nat` (Python integers are unbounded, so
no wrap-around modelling is needed); fallible operations return `Option`.
-/

namespace RobotPlanner

/-- Model of `Vector2 = namedtuple("Vector2", ["x", "y"])`: an integer coordinate pair
with structural equality. -/
structure Vector2 where
  x : Int
  y : Int
deriving DecidableEq, Repr

/-- Python list indexing `l[i]`: a negative index `i` with `-len ≤ i` selects
`l[len + i]`; anything out of range raises `IndexError`, modelled as `none`. -/
def pyGet {α : Type} (l : List α) (i : Int) : Option α :=
  if 0 ≤ i then l.get? i.toNat
  else if (l.length : Int) + i < 0 then none
  else l.get? ((l.length : Int) + i).toNat

/-- The `World` grid: `data` is the list of rows, each row a list of the
whitespace-separated tokens of one input line (`"0"` = empty, `"1"` = wall). -/
structure World where
  data : List (List String)
deriving DecidableEq, Repr

/-- Width: `self.width = len(self.data[0])`. -/
def World.width (w : World) : Nat := (w.data.headD []).length

/-- Height: `self.height = len(self.data)`. -/
def World.height (w : World) : Nat := w.data.length

/-- Containment test `World.point_inside`: `0 <= x < width and 0 <= y < height`. -/
def World.point_inside (w : World) (p : Vector2) : Bool :=
  decide (0 ≤ p.x ∧ p.x < (w.width : Int) ∧ 0 ≤ p.y ∧ p.y < (w.height : Int))

/-- Indexing `self[the_point]`, i.e. `self.data[y][x]` with Python indexing; `none`
models an uncaught `IndexError`. -/
def World.getPoint (w : World) (p : Vector2) : Option String :=
  (pyGet w.data p.y).bind (fun row => pyGet row p.x)

/-- Passability query `World.is_empty`: `self[the_point] == "0"`.  No bounds check is performed
by the source; an `IndexError` is modelled as `none`. -/
def World.is_empty (w : World) (p : Vector2) : Option Bool :=
  (w.getPoint p).map (fun s => decide (s = "0"))

/-- Adjacency query `World.neighbours`: the four axis-aligned candidates in source order
(left, right, down, up), kept when `point_inside` and then `is_empty` hold.
Because `point_inside` is checked first, `is_empty` cannot raise on a kept
candidate of a rectangular grid. -/
def World.neighbours (w : World) (p : Vector2) : List Vector2 :=
  [⟨p.x - 1, p.y⟩, ⟨p.x + 1, p.y⟩, ⟨p.x, p.y + 1⟩, ⟨p.x, p.y - 1⟩].filter
    (fun n => w.point_inside n && decide (w.is_empty n = some true))

/-- Well-formedness of a grid, the invariant the spec states for `Grid`:
at least one row, and every row has length `width` (rectangularity). -/
def World.wf (w : World) : Prop :=
  w.data ≠ [] ∧ ∀ r ∈ w.data, r.length = w.width

instance (w : World) : Decidable w.wf := by
  unfold World.wf; infer_instance

/-- Heuristic `cartesian_distance`: the Manhattan distance `|x1-x2| + |y1-y2|`
(a non-negative integer, so `Nat`). -/
def cartesian_distance (pos1 pos2 : Vector2) : Nat :=
  (pos1.x - pos2.x).natAbs + (pos1.y - pos2.y).natAbs

/-- Stable insertion of one `(priority, data)` entry: the new entry goes in
front of the first element whose priority is not strictly smaller.  Used to
model Python's stable `list.sort(key=lambda x: x[0])`. -/
def sinsert {α : Type} (x : Nat × α) : List (Nat × α) → List (Nat × α)
  | [] => [x]
  | y :: ys => if y.1 < x.1 then y :: sinsert x ys else x :: y :: ys

/-- Stable sort by priority (first component), modelling Python's
`self.data.sort(key=lambda x: x[0])`: stability plus sortedness determine the
result list uniquely, so any stable sort is a faithful model. -/
def psort {α : Type} : List (Nat × α) → List (Nat × α)
  | [] => []
  | x :: xs => sinsert x (psort xs)

/-- The `PriorityQueue` class: a bare list of `(priority, data)` pairs. -/
structure PriorityQueue (α : Type) where
  data : List (Nat × α)

/-- Emptiness check `PriorityQueue.empty`. -/
def PriorityQueue.empty {α : Type} (q : PriorityQueue α) : Bool :=
  q.data.isEmpty

/-- Insertion `PriorityQueue.put`: appends `(priority, data)`. -/
def PriorityQueue.put {α : Type} (q : PriorityQueue α) (d : α) (priority : Nat) :
    PriorityQueue α :=
  ⟨q.data ++ [(priority, d)]⟩

/-- Extraction `PriorityQueue.pop`: `None` when empty; otherwise sort the backing list
by priority (stably, in place) and pop index 0.  The returned pair is the
popped value together with the mutated queue. -/
def PriorityQueue.pop {α : Type} (q : PriorityQueue α) :
    Option α × PriorityQueue α :=
  match psort q.data with
  | [] => (none, q)
  | x :: rest => (some x.2, ⟨rest⟩)

/-- Lookup in a Python dict modelled as an association list (first match). -/
def dlookup {β : Type} : List (Vector2 × β) → Vector2 → Option β
  | [], _ => none
  | (k, v) :: r, q => if q = k then some v else dlookup r q

/-- Dict assignment `d[k] = v`: replace the binding in place, or append. -/
def dinsert {β : Type} : List (Vector2 × β) → Vector2 → β → List (Vector2 × β)
  | [], k, v => [(k, v)]
  | (k', v') :: r, k, v =>
    if k = k' then (k, v) :: r else (k', v') :: dinsert r k v

/-- The mutable state of one `a_star` call: the frontier `looking_at`, the
`parent` dict (`None` stored as `none`), and the `cost` dict. -/
structure SState where
  frontier : PriorityQueue Vector2
  parent : List (Vector2 × Option Vector2)
  cost : List (Vector2 × Nat)

/-- The state after the improvement branch of the neighbour loop body:
`cost[new_point] = new_cost`, a push of `new_point` with priority
`new_cost + cartesian_distance(the_end, new_point)`, and
`parent[new_point] = current`. -/
def writeSt (the_end current : Vector2) (st : SState) (new_point : Vector2)
    (new_cost : Nat) : SState :=
  { frontier := st.frontier.put new_point
      (new_cost + cartesian_distance the_end new_point),
    parent := dinsert st.parent new_point (some current),
    cost := dinsert st.cost new_point new_cost }

/-- One execution of the body of `for new_point in the_world.neighbours(current)`:
look up `cost[current]` (a `KeyError` is `none`), and when `new_point` is new
or improved (`new_point not in cost or new_cost < cost[new_point]`), perform
the writes of `writeSt`. -/
def relaxOne (the_end current : Vector2) (st : SState) (new_point : Vector2) :
    Option SState :=
  match dlookup st.cost current with
  | none => none
  | some c =>
    let new_cost := c + 1
    let doWrite : Bool :=
      match dlookup st.cost new_point with
      | none => true
      | some old => decide (new_cost < old)
    if doWrite then some (writeSt the_end current st new_point new_cost)
    else some st

/-- The whole `for` loop over the neighbour list. -/
def relaxList (the_end current : Vector2) :
    List Vector2 → SState → Option SState
  | [], st => some st
  | n :: ns, st =>
    match relaxOne the_end current st n with
    | none => none
    | some st' => relaxList the_end current ns st'

/-- Outcome of the main `while` loop: out of fuel (an artefact of the
embedding), an uncaught `KeyError`, `break` on popping the goal, or normal
exit with an empty frontier. -/
inductive LoopRes where
  | fuelOut
  | keyErr
  | broke (st : SState)
  | exhausted (st : SState)

/-- The main loop `while not looking_at.empty()`, fuelled. -/
def loop (w : World) (the_end : Vector2) : Nat → SState → LoopRes
  | 0, _ => .fuelOut
  | fuel + 1, st =>
    if st.frontier.empty then .exhausted st
    else
      match st.frontier.pop with
      | (none, _) => .exhausted st
      | (some current, q') =>
        let st1 : SState := { st with frontier := q' }
        if current = the_end then .broke st1
        else
          match relaxList the_end current (w.neighbours current) st1 with
          | none => .keyErr
          | some st2 => loop w the_end fuel st2

/-- Outcome of the path-reconstruction loop: out of fuel, the `KeyError`
branch (`err("No path could be found.")`), or success with the cells
appended after `[the_end]`. -/
inductive RecRes where
  | fuelOut
  | noPath
  | ok (acc : List (Option Vector2))
deriving DecidableEq, Repr

/-- Reconstruction loop `while the_point != the_start: the_point = parent[the_point];
the_path.append(the_point)`.  The loop variable may hold Python `None`
(modelled `none`); looking `None` up in `parent` raises `KeyError`. -/
def recLoop (parent : List (Vector2 × Option Vector2)) (the_start : Vector2) :
    Nat → Option Vector2 → List (Option Vector2) → RecRes
  | 0, _, _ => .fuelOut
  | fuel + 1, cur, acc =>
    if cur = some the_start then .ok acc
    else
      match cur with
      | none => .noPath
      | some p =>
        match dlookup parent p with
        | none => .noPath
        | some v => recLoop parent the_start fuel v (acc ++ [v])

/-- Observable outcome of `a_star`: the returned path (its cells as the
Python objects they are, so `Option Vector2`), the `err` exit for "No path
could be found.", an uncaught `KeyError` of the main loop, or out of fuel. -/
inductive AStarRes where
  | fuelOut
  | mainErr
  | noPath
  | path (p : List (Option Vector2))
deriving DecidableEq, Repr

/-- The state set up before the loop: `looking_at.put(the_start, 0)`,
`parent = {the_start: None}`, `cost = {the_start: 0}`. -/
def initState (the_start : Vector2) : SState :=
  { frontier := PriorityQueue.put ⟨[]⟩ the_start 0,
    parent := [(the_start, none)],
    cost := [(the_start, 0)] }

/-- Entry point `a_star(the_start, the_end, the_world)`: run the main loop, then walk the
parent map backward from `the_end` and reverse, as the source does.  The one
`fuel` bounds both loops; every claim about `a_star` quantifies over or
exhibits a sufficient fuel. -/
def a_star (fuel : Nat) (the_start the_end : Vector2) (the_world : World) :
    AStarRes :=
  match loop the_world the_end fuel (initState the_start) with
  | .fuelOut => .fuelOut
  | .keyErr => .mainErr
  | .broke st =>
    match recLoop st.parent the_start fuel (some the_end) [] with
    | .fuelOut => .fuelOut
    | .noPath => .noPath
    | .ok acc => .path ((some the_end :: acc).reverse)
  | .exhausted st =>
    match recLoop st.parent the_start fuel (some the_end) [] with
    | .fuelOut => .fuelOut
    | .noPath => .noPath
    | .ok acc => .path ((some the_end :: acc).reverse)

/-- A grid whose stored tokens are all `"0"` or `"1"`. -/
def World.binaryCells (w : World) : Prop :=
  ∀ r ∈ w.data, ∀ c ∈ r, c = "0" ∨ c = "1"

instance (w : World) : Decidable w.binaryCells := by
  unfold World.binaryCells; infer_instance

/-- The observable monotonicity of the cost dict across part of a run: every
recorded key stays recorded, and its value never increases (so an overwrite
is always a strict decrease). -/
def CostMono (m m' : List (Vector2 × Nat)) : Prop :=
  ∀ p c, dlookup m p = some c → ∃ c', dlookup m' p = some c' ∧ c' ≤ c


/-- A 4-directional passable route: `IsChain w a b n` holds when `n` steps
through `World.neighbours` lead from `a` to `b`.  Every visited cell after
`a` is in bounds and passable, because `neighbours` only returns such cells. -/
inductive IsChain (w : World) : Vector2 → Vector2 → Nat → Prop
  | nil (a : Vector2) : IsChain w a a 0
  | cons {a b c : Vector2} {n : Nat} (hab : b ∈ w.neighbours a)
      (h : IsChain w b c n) : IsChain w a c (n + 1)

/-- The number of cells of the grid plus one (room for an out-of-bounds
start); bounds the number of keys the cost dict can ever hold. -/
def gridCap (w : World) : Nat := w.width * w.height + 1

/-- Sum of the values of the cost dict. -/
def costSum (st : SState) : Nat := (st.cost.map (fun pr => pr.2)).sum

/-- Termination measure of the main loop: a weighted count of undiscovered
cells, plus the recorded costs, plus the frontier size.  Every loop
iteration strictly decreases it. -/
def Mw (w : World) (st : SState) : Nat :=
  (gridCap w + 1) * (gridCap w - st.cost.length) + costSum st +
    st.frontier.data.length

/-- The inductive invariant of the main loop, for start `s` and goal `e`.
`X` carves out the cells whose `openRelax` clause is currently guaranteed
(all of them, except transiently the just-popped cell). -/
structure InvB (w : World) (s e : Vector2) (X : Vector2 → Prop) (st : SState) :
    Prop where
  nodupCost : (st.cost.map Prod.fst).Nodup
  keysEq : ∀ p : Vector2, (dlookup st.cost p).isSome ↔ (dlookup st.parent p).isSome
  costStart : dlookup st.cost s = some 0
  parentStart : dlookup st.parent s = some none
  parentNoneStart : ∀ p, dlookup st.parent p = some none → p = s
  parentAdj : ∀ p q, dlookup st.parent p = some (some q) → p ∈ w.neighbours q
  parentCostLt : ∀ p q, dlookup st.parent p = some (some q) →
    ∃ cq cp, dlookup st.cost q = some cq ∧ dlookup st.cost p = some cp ∧ cq < cp
  costLB : ∀ p c, dlookup st.cost p = some c → ∃ m, m ≤ c ∧ IsChain w s p m
  frontierPr : ∀ pr v, (pr, v) ∈ st.frontier.data →
    ∃ c, dlookup st.cost v = some c ∧
      (c + cartesian_distance e v ≤ pr ∨ (v = s ∧ c = 0 ∧ pr = 0))
  costUniv : ∀ p, (dlookup st.cost p).isSome → p = s ∨ w.point_inside p = true
  valueBound : ∀ p c, dlookup st.cost p = some c → c + 1 ≤ st.cost.length
  openRelax : ∀ p, X p → ∀ c, dlookup st.cost p = some c →
    (∃ pr, (pr, p) ∈ st.frontier.data ∧
      (pr ≤ c + cartesian_distance e p ∨ pr = 0)) ∨
    (∀ u ∈ w.neighbours p, ∃ cu, dlookup st.cost u = some cu ∧ cu ≤ c + 1)

/-- The invariant with the `openRelax` clause available at every cell. -/
def Inv (w : World) (s e : Vector2) (st : SState) : Prop :=
  InvB w s e (fun _ => True) st

/-- The backward parent chain the reconstruction walks: from `p`, following
`parent` pointers through the listed cells, ending at `s`. -/
inductive PChain (par : List (Vector2 × Option Vector2)) (s : Vector2) :
    Vector2 → List Vector2 → Prop
  | base : PChain par s s []
  | step {p q : Vector2} {l : List Vector2} (hne : p ≠ s)
      (hl : dlookup par p = some (some q)) (h : PChain par s q l) :
      PChain par s p (q :: l)

/-- One letter of the CLI directional encoder: `R` when x grows, `L` when x
shrinks, `D` when y grows, otherwise `U`. -/
def stepLetter (prev point : Vector2) : Char :=
  if prev.x < point.x then 'R'
  else if point.x < prev.x then 'L'
  else if prev.y < point.y then 'D'
  else 'U'

/-- The letter sequence the encoder prints for a path (one letter per
consecutive pair). -/
def encodePath : List Vector2 → List Char
  | [] => []
  | [_] => []
  | a :: b :: r => stepLetter a b :: encodePath (b :: r)

/-- Modelled from the spec: the replay convention of §6 — applying a letter
moves one cell, `R`: x+1, `L`: x-1, `D`: y+1, `U`: y-1 (no such code exists in
the repository; this is the decoding direction the round-trip claim is about). -/
def applyLetter (p : Vector2) (c : Char) : Vector2 :=
  if c = 'R' then ⟨p.x + 1, p.y⟩
  else if c = 'L' then ⟨p.x - 1, p.y⟩
  else if c = 'D' then ⟨p.x, p.y + 1⟩
  else if c = 'U' then ⟨p.x, p.y - 1⟩
  else p

/-- Modelled from the spec: replaying a letter sequence from a cell, listing
every cell visited (the start included). -/
def replay (p : Vector2) : List Char → List Vector2
  | [] => [p]
  | c :: cs => p :: replay (applyLetter p c) cs

/-- Modelled from the spec (§4.1, for the refinement claim about
`neighbours`): a cell is passable when it is inside the grid and its entry,
read by plain non-negative indexing, is not the obstacle marker. -/
def specPassable (w : World) (p : Vector2) : Bool :=
  w.point_inside p &&
    decide ((w.data.get? p.y.toNat).bind (fun row => row.get? p.x.toNat) = some "0")

/-- Modelled from the spec (§4.1): the up-to-four axis-aligned adjacent
cells that are contained and passable, in the fixed order left, right,
down, up. -/
def specNeighbours (w : World) (p : Vector2) : List Vector2 :=
  [⟨p.x - 1, p.y⟩, ⟨p.x + 1, p.y⟩, ⟨p.x, p.y + 1⟩, ⟨p.x, p.y - 1⟩].filter
    (fun n => specPassable w n)

/-! ## Lemmas about the stable sort backing `PriorityQueue.pop` -/

theorem sinsert_perm {α : Type} (x : Nat × α) (l : List (Nat × α)) :
    (sinsert x l).Perm (x :: l) := by
  induction l with
  | nil => simp [sinsert]
  | cons y ys ih =>
    by_cases h : y.1 < x.1
    · simp only [sinsert, if_pos h]
      exact (ih.cons y).trans (List.Perm.swap x y ys)
    · simp [sinsert, if_neg h]

theorem psort_perm {α : Type} (l : List (Nat × α)) : (psort l).Perm l := by
  induction l with
  | nil => simp [psort]
  | cons x xs ih =>
    exact (sinsert_perm x (psort xs)).trans (ih.cons x)

theorem mem_psort {α : Type} {l : List (Nat × α)} {y : Nat × α} :
    y ∈ psort l ↔ y ∈ l :=
  (psort_perm l).mem_iff

theorem sinsert_sorted {α : Type} {x : Nat × α} {l : List (Nat × α)}
    (hl : l.Pairwise (fun a b => a.1 ≤ b.1)) :
    (sinsert x l).Pairwise (fun a b => a.1 ≤ b.1) := by
  induction l with
  | nil => simp [sinsert]
  | cons y ys ih =>
    rcases List.pairwise_cons.mp hl with ⟨hy, hys⟩
    by_cases h : y.1 < x.1
    · simp only [sinsert, if_pos h]
      refine List.pairwise_cons.mpr ⟨?_, ih hys⟩
      intro z hz
      rcases List.mem_cons.mp ((sinsert_perm x ys).mem_iff.mp hz) with rfl | hz
      · exact Nat.le_of_lt h
      · exact hy z hz
    · simp only [sinsert, if_neg h]
      refine List.pairwise_cons.mpr ⟨?_, hl⟩
      intro z hz
      rcases List.mem_cons.mp hz with hz | hz
      · subst hz; exact Nat.le_of_not_lt h
      · exact Nat.le_trans (Nat.le_of_not_lt h) (hy z hz)

theorem psort_sorted {α : Type} (l : List (Nat × α)) :
    (psort l).Pairwise (fun a b => a.1 ≤ b.1) := by
  induction l with
  | nil => simp [psort]
  | cons x xs ih => exact sinsert_sorted ih

theorem sinsert_filter_eq {α : Type} (x : Nat × α) (l : List (Nat × α))
    {k : Nat} (hx : x.1 = k) :
    (sinsert x l).filter (fun y => decide (y.1 = k)) =
      x :: l.filter (fun y => decide (y.1 = k)) := by
  induction l with
  | nil => simp [sinsert, hx]
  | cons y ys ih =>
    by_cases h : y.1 < x.1
    · have hy : ¬ y.1 = k := by omega
      simp only [sinsert, if_pos h, List.filter_cons]
      simp [hy, ih]
    · simp only [sinsert, if_neg h, List.filter_cons]
      simp [hx]

theorem sinsert_filter_ne {α : Type} (x : Nat × α) (l : List (Nat × α))
    {k : Nat} (hx : ¬ x.1 = k) :
    (sinsert x l).filter (fun y => decide (y.1 = k)) =
      l.filter (fun y => decide (y.1 = k)) := by
  induction l with
  | nil => simp [sinsert, hx]
  | cons y ys ih =>
    by_cases h : y.1 < x.1
    · simp only [sinsert, if_pos h, List.filter_cons]
      by_cases hy : y.1 = k <;> simp [hy, ih]
    · simp [sinsert, if_neg h, List.filter_cons, hx]

/-- Stability of the sort: for each priority value, the entries carrying it
appear in `psort l` in exactly the order they have in `l`. -/
theorem psort_filter {α : Type} (l : List (Nat × α)) (k : Nat) :
    (psort l).filter (fun y => decide (y.1 = k)) =
      l.filter (fun y => decide (y.1 = k)) := by
  induction l with
  | nil => simp [psort]
  | cons x xs ih =>
    by_cases hx : x.1 = k
    · simp only [psort, sinsert_filter_eq x (psort xs) hx, ih, List.filter_cons]
      simp [hx]
    · simp only [psort, sinsert_filter_ne x (psort xs) hx, ih, List.filter_cons]
      simp [hx]

theorem psort_eq_nil_iff {α : Type} {l : List (Nat × α)} :
    psort l = [] ↔ l = [] := by
  constructor
  · intro h
    have := psort_perm l
    rw [h] at this
    exact (List.Perm.nil_eq this).symm
  · intro h; subst h; simp [psort]

theorem filter_eq_cons_split {α : Type} {p : α → Bool} {l : List α} {a : α}
    {as : List α} (h : l.filter p = a :: as) :
    ∃ l1 l2, l = l1 ++ a :: l2 ∧ ∀ x ∈ l1, ¬ p x = true := by
  induction l with
  | nil => simp at h
  | cons x xs ih =>
    by_cases hx : p x
    · rw [List.filter_cons_of_pos hx] at h
      obtain ⟨rfl, _⟩ : x = a ∧ xs.filter p = as := by
        constructor <;> [exact (List.cons.injEq .. ▸ h).1;
          exact (List.cons.injEq .. ▸ h).2]
      exact ⟨[], xs, by simp, by simp⟩
    · rw [List.filter_cons_of_neg hx] at h
      obtain ⟨l1, l2, rfl, hl1⟩ := ih h
      refine ⟨x :: l1, l2, by simp, ?_⟩
      intro z hz
      rcases List.mem_cons.mp hz with rfl | hz
      · simpa using hx
      · exact hl1 z hz

/-! ## Lemmas about the dict model -/

theorem dlookup_dinsert_self {β : Type} (m : List (Vector2 × β))
    (k : Vector2) (v : β) : dlookup (dinsert m k v) k = some v := by
  induction m with
  | nil => simp [dinsert, dlookup]
  | cons h r ih =>
    obtain ⟨k', v'⟩ := h
    by_cases hk : k = k'
    · simp [dinsert, hk, dlookup]
    · simp [dinsert, hk, dlookup, ih]

theorem dlookup_dinsert_other {β : Type} (m : List (Vector2 × β))
    {k q : Vector2} (v : β) (hq : q ≠ k) :
    dlookup (dinsert m k v) q = dlookup m q := by
  induction m with
  | nil => simp [dinsert, dlookup, hq]
  | cons h r ih =>
    obtain ⟨k', v'⟩ := h
    by_cases hk : k = k'
    · subst hk
      simp [dinsert, dlookup, hq]
    · by_cases hq' : q = k'
      · simp [dinsert, hk, dlookup, hq']
      · simp [dinsert, hk, dlookup, hq', ih]

theorem dlookup_eq_none_iff {β : Type} {m : List (Vector2 × β)} {k : Vector2} :
    dlookup m k = none ↔ k ∉ m.map Prod.fst := by
  induction m with
  | nil => simp [dlookup]
  | cons h r ih =>
    obtain ⟨k', v'⟩ := h
    by_cases hk : k = k'
    · simp [dlookup, hk]
    · simp [dlookup, hk, ih]

theorem dlookup_mem {β : Type} {m : List (Vector2 × β)} {k : Vector2} {v : β}
    (h : dlookup m k = some v) : (k, v) ∈ m := by
  induction m with
  | nil => simp [dlookup] at h
  | cons hd r ih =>
    obtain ⟨k', v'⟩ := hd
    by_cases hk : k = k'
    · simp only [dlookup, if_pos hk] at h
      obtain rfl := Option.some.injEq .. ▸ h
      simp [hk]
    · simp only [dlookup, if_neg hk] at h
      exact List.mem_cons_of_mem _ (ih h)

theorem mem_dinsert {β : Type} {m : List (Vector2 × β)} {k : Vector2} {v : β}
    {pr : Vector2 × β} (h : pr ∈ dinsert m k v) : pr = (k, v) ∨ pr ∈ m := by
  induction m with
  | nil => simpa [dinsert] using h
  | cons hd r ih =>
    obtain ⟨k', v'⟩ := hd
    by_cases hk : k = k'
    · simp only [dinsert, if_pos hk] at h
      rcases List.mem_cons.mp h with rfl | h
      · exact Or.inl rfl
      · exact Or.inr (List.mem_cons_of_mem _ h)
    · simp only [dinsert, if_neg hk] at h
      rcases List.mem_cons.mp h with rfl | h
      · exact Or.inr (List.mem_cons_self ..)
      · rcases ih h with h | h
        · exact Or.inl h
        · exact Or.inr (List.mem_cons_of_mem _ h)

theorem keys_dinsert_of_lookup_some {β : Type} {m : List (Vector2 × β)}
    {k : Vector2} {v0 : β} (h : dlookup m k = some v0) (v : β) :
    (dinsert m k v).map Prod.fst = m.map Prod.fst := by
  induction m with
  | nil => simp [dlookup] at h
  | cons hd r ih =>
    obtain ⟨k', v'⟩ := hd
    by_cases hk : k = k'
    · simp [dinsert, hk]
    · simp only [dlookup, if_neg hk] at h
      simp [dinsert, hk, ih h]

theorem keys_dinsert_of_lookup_none {β : Type} {m : List (Vector2 × β)}
    {k : Vector2} (h : dlookup m k = none) (v : β) :
    (dinsert m k v).map Prod.fst = m.map Prod.fst ++ [k] := by
  induction m with
  | nil => simp [dinsert]
  | cons hd r ih =>
    obtain ⟨k', v'⟩ := hd
    by_cases hk : k = k'
    · simp [dlookup, hk] at h
    · simp only [dlookup, if_neg hk] at h
      simp [dinsert, hk, ih h]

theorem length_dinsert_of_lookup_some {β : Type} {m : List (Vector2 × β)}
    {k : Vector2} {v0 : β} (h : dlookup m k = some v0) (v : β) :
    (dinsert m k v).length = m.length := by
  have := keys_dinsert_of_lookup_some h v
  have h1 : ((dinsert m k v).map Prod.fst).length = (m.map Prod.fst).length :=
    by rw [this]
  simpa using h1

theorem length_dinsert_of_lookup_none {β : Type} {m : List (Vector2 × β)}
    {k : Vector2} (h : dlookup m k = none) (v : β) :
    (dinsert m k v).length = m.length + 1 := by
  have := keys_dinsert_of_lookup_none h v
  have h1 : ((dinsert m k v).map Prod.fst).length =
      (m.map Prod.fst ++ [k]).length := by rw [this]
  simpa using h1

theorem sum_dinsert_of_lookup_some {β : Type} (f : β → Nat)
    {m : List (Vector2 × β)} {k : Vector2} {v0 : β}
    (h : dlookup m k = some v0) (v : β) :
    ((dinsert m k v).map (fun pr => f pr.2)).sum + f v0 =
      (m.map (fun pr => f pr.2)).sum + f v := by
  induction m with
  | nil => simp [dlookup] at h
  | cons hd r ih =>
    obtain ⟨k', v'⟩ := hd
    by_cases hk : k = k'
    · simp only [dlookup, if_pos hk] at h
      obtain rfl := Option.some.injEq .. ▸ h
      simp [dinsert, hk]
      omega
    · simp only [dlookup, if_neg hk] at h
      simp only [dinsert, if_neg hk, List.map_cons, List.sum_cons]
      have := ih h
      omega

theorem sum_dinsert_of_lookup_none {β : Type} (f : β → Nat)
    {m : List (Vector2 × β)} {k : Vector2}
    (h : dlookup m k = none) (v : β) :
    ((dinsert m k v).map (fun pr => f pr.2)).sum =
      (m.map (fun pr => f pr.2)).sum + f v := by
  induction m with
  | nil => simp [dinsert]
  | cons hd r ih =>
    obtain ⟨k', v'⟩ := hd
    by_cases hk : k = k'
    · simp [dlookup, hk] at h
    · simp only [dlookup, if_neg hk] at h
      simp only [dinsert, if_neg hk, List.map_cons, List.sum_cons, ih h]
      omega

/-! ## Lemmas about neighbours and chains -/

theorem mem_neighbours_dist {w : World} {p n : Vector2}
    (h : n ∈ w.neighbours p) : cartesian_distance p n = 1 := by
  simp only [World.neighbours, List.mem_filter] at h
  obtain ⟨hmem, _⟩ := h
  fin_cases hmem <;> simp [cartesian_distance]

theorem mem_neighbours_inside {w : World} {p n : Vector2}
    (h : n ∈ w.neighbours p) : w.point_inside n = true := by
  simp only [World.neighbours, List.mem_filter, Bool.and_eq_true] at h
  exact h.2.1

theorem mem_neighbours_empty {w : World} {p n : Vector2}
    (h : n ∈ w.neighbours p) : w.is_empty n = some true := by
  simp only [World.neighbours, List.mem_filter, Bool.and_eq_true,
    decide_eq_true_eq] at h
  exact h.2.2

theorem mem_neighbours_ne {w : World} {p n : Vector2}
    (h : n ∈ w.neighbours p) : n ≠ p := by
  intro he
  have := mem_neighbours_dist h
  subst he
  simp [cartesian_distance] at this

theorem cartesian_distance_comm (a b : Vector2) :
    cartesian_distance a b = cartesian_distance b a := by
  simp only [cartesian_distance]
  omega

theorem cartesian_distance_triangle (a b c : Vector2) :
    cartesian_distance a c ≤ cartesian_distance a b + cartesian_distance b c := by
  simp only [cartesian_distance]
  omega

theorem chain_zero {w : World} {a b : Vector2} (h : IsChain w a b 0) : a = b := by
  cases h; rfl

theorem chain_snoc {w : World} {a b c : Vector2} {n : Nat}
    (h : IsChain w a b n) (hbc : c ∈ w.neighbours b) : IsChain w a c (n + 1) := by
  induction h with
  | nil a => exact IsChain.cons hbc (IsChain.nil c)
  | cons hab _ ih => exact IsChain.cons hab (ih hbc)

/-- Admissibility of the heuristic: a chain of `n` steps from `v` to `e`
covers at least the Manhattan distance. -/
theorem chain_manhattan {w : World} {v e : Vector2} {n : Nat}
    (h : IsChain w v e n) : cartesian_distance e v ≤ n := by
  induction h with
  | nil a => simp [cartesian_distance]
  | cons hab h ih =>
    rename_i a b c m
    have h1 := cartesian_distance_triangle c b a
    have h2 := mem_neighbours_dist hab
    rw [cartesian_distance_comm b a] at h1
    omega

/-! ## Grid access under well-formedness -/

theorem getPoint_of_inside {w : World} (hwf : w.wf) {p : Vector2}
    (hin : w.point_inside p = true) :
    ∃ row s, w.data.get? p.y.toNat = some row ∧ row.get? p.x.toNat = some s ∧
      w.getPoint p = some s ∧ row ∈ w.data ∧ s ∈ row := by
  simp only [World.point_inside, decide_eq_true_eq] at hin
  obtain ⟨hx0, hxw, hy0, hyh⟩ := hin
  have hylt : p.y.toNat < w.data.length := by
    simp only [World.height] at hyh; omega
  cases hrow : w.data.get? p.y.toNat with
  | none =>
    rw [List.get?_eq_none] at hrow
    omega
  | some row =>
    have hrowmem : row ∈ w.data := List.get?_mem hrow
    have hrlen : row.length = w.width := hwf.2 row hrowmem
    have hxlt : p.x.toNat < row.length := by
      rw [hrlen]; omega
    cases hs : row.get? p.x.toNat with
    | none =>
      rw [List.get?_eq_none] at hs
      omega
    | some s =>
      refine ⟨row, s, rfl, hs, ?_, hrowmem, List.get?_mem hs⟩
      have hrow' : w.data[p.y.toNat]? = some row := by simpa using hrow
      have hs' : row[p.x.toNat]? = some s := by simpa using hs
      simp [World.getPoint, pyGet, if_pos hy0, if_pos hx0, hrow', hs']

/-! ## The encoder round trip on unit-step paths -/

theorem apply_stepLetter {a b : Vector2} (h : cartesian_distance a b = 1) :
    applyLetter a (stepLetter a b) = b := by
  obtain ⟨ax, ay⟩ := a
  obtain ⟨bx, byy⟩ := b
  simp only [cartesian_distance] at h
  rcases (by omega :
      (bx = ax + 1 ∧ byy = ay) ∨ (bx = ax - 1 ∧ byy = ay) ∨
      (bx = ax ∧ byy = ay + 1) ∨ (bx = ax ∧ byy = ay - 1)) with
    ⟨h1, h2⟩ | ⟨h1, h2⟩ | ⟨h1, h2⟩ | ⟨h1, h2⟩ <;> rw [h1, h2]
  · have hs : stepLetter ⟨ax, ay⟩ ⟨ax + 1, ay⟩ = 'R' := by
      simp [stepLetter, show ax < ax + 1 from by omega]
    rw [hs]; simp [applyLetter]
  · have hs : stepLetter ⟨ax, ay⟩ ⟨ax - 1, ay⟩ = 'L' := by
      simp [stepLetter, show ¬ ax < ax - 1 from by omega,
        show ax - 1 < ax from by omega]
    rw [hs]; simp [applyLetter]
  · have hs : stepLetter ⟨ax, ay⟩ ⟨ax, ay + 1⟩ = 'D' := by
      simp [stepLetter, show ay < ay + 1 from by omega]
    rw [hs]; simp [applyLetter]
  · have hs : stepLetter ⟨ax, ay⟩ ⟨ax, ay - 1⟩ = 'U' := by
      simp [stepLetter, show ¬ ay < ay - 1 from by omega]
    rw [hs]; simp [applyLetter]

theorem replay_encodePath (rest : List Vector2) (a : Vector2)
    (hl : List.Chain' (fun u v => cartesian_distance u v = 1) (a :: rest)) :
    replay a (encodePath (a :: rest)) = a :: rest := by
  induction rest generalizing a with
  | nil => simp [encodePath, replay]
  | cons b r ih =>
    rw [List.chain'_cons] at hl
    simp only [encodePath, replay, apply_stepLetter hl.1]
    rw [ih b hl.2]

/-! ## Claim C10: pop returns the earliest-inserted minimal-priority entry -/

/-- C10: on a non-empty queue, `pop` removes and returns the data of an entry
with minimal priority; among the entries sharing that minimal priority it is
the one occurring first in the backing list (the earliest inserted, since
`put` appends and the stable sort plus `pop(0)` preserve the relative order
of equal priorities, as the last conjunct states for every priority class);
the remaining queue is the sorted list without that entry.  `a_star` is a
pure function of its arguments in this embedding, so determinism follows. -/
theorem pq_pop_min_earliest {α : Type} (q : PriorityQueue α)
    (h : q.data ≠ []) :
    ∃ (pr : Nat) (m : α) (t l1 l2 : List (Nat × α)),
      psort q.data = (pr, m) :: t ∧
      q.pop = (some m, PriorityQueue.mk t) ∧
      (∀ y ∈ q.data, pr ≤ y.1) ∧
      q.data = l1 ++ (pr, m) :: l2 ∧
      (∀ y ∈ l1, pr < y.1) ∧
      (∀ k, ((pr, m) :: t).filter (fun y => decide (y.1 = k)) =
        q.data.filter (fun y => decide (y.1 = k))) := by
  cases hps : psort q.data with
  | nil => exact absurd (psort_eq_nil_iff.mp hps) h
  | cons x t =>
    obtain ⟨pr, m⟩ := x
    have hsorted := psort_sorted q.data
    rw [hps] at hsorted
    have hmin : ∀ y ∈ q.data, pr ≤ y.1 := by
      intro y hy
      have hy2 : y ∈ (pr, m) :: t := by rw [← hps]; exact mem_psort.mpr hy
      rcases List.mem_cons.mp hy2 with rfl | hyt
      · exact Nat.le_refl _
      · exact (List.pairwise_cons.mp hsorted).1 y hyt
    have hstab : ∀ k, ((pr, m) :: t).filter (fun y => decide (y.1 = k)) =
        q.data.filter (fun y => decide (y.1 = k)) := by
      intro k
      rw [← hps]
      exact psort_filter _ k
    have hfil := hstab pr
    rw [List.filter_cons_of_pos (by simp)] at hfil
    obtain ⟨l1, l2, hsplit, hl1⟩ := filter_eq_cons_split hfil.symm
    refine ⟨pr, m, t, l1, l2, rfl, ?_, hmin, hsplit, ?_, hstab⟩
    · simp [PriorityQueue.pop, hps]
    · intro y hy
      have h1 : pr ≤ y.1 := hmin y (by rw [hsplit]; exact List.mem_append_left _ hy)
      have h2 := hl1 y hy
      simp only [decide_eq_true_eq] at h2
      omega

/-- Witness for C10 at a concrete queue with a priority tie. -/
theorem pq_pop_min_earliest_witness :
    (PriorityQueue.mk [(2, "a"), (1, "b"), (1, "c")]).data ≠ [] ∧
    (∃ (pr : Nat) (m : String) (t l1 l2 : List (Nat × String)),
      psort (PriorityQueue.mk [(2, "a"), (1, "b"), (1, "c")]).data = (pr, m) :: t ∧
      (PriorityQueue.mk [(2, "a"), (1, "b"), (1, "c")]).pop =
        (some m, PriorityQueue.mk t) ∧
      (∀ y ∈ (PriorityQueue.mk [(2, "a"), (1, "b"), (1, "c")]).data, pr ≤ y.1) ∧
      (PriorityQueue.mk [(2, "a"), (1, "b"), (1, "c")]).data = l1 ++ (pr, m) :: l2 ∧
      (∀ y ∈ l1, pr < y.1) ∧
      (∀ k, ((pr, m) :: t).filter (fun y => decide (y.1 = k)) =
        (PriorityQueue.mk [(2, "a"), (1, "b"), (1, "c")]).data.filter
          (fun y => decide (y.1 = k)))) :=
  ⟨by simp, pq_pop_min_earliest _ (by simp)⟩

/-! ## Claim C5: the passability query -/

/-- C5 counterexample: `World.is_empty` does not bounds-check.  On the
one-row grid `1 0`, the out-of-bounds cell `(-1, 0)` wraps around through
Python negative indexing and is reported passable, refuting "true iff the
cell is inside the grid and not an obstacle". -/
theorem is_empty_not_bounds_checked :
    (World.mk [["1", "0"]]).is_empty ⟨-1, 0⟩ = some true ∧
    (World.mk [["1", "0"]]).point_inside ⟨-1, 0⟩ = false := by
  constructor
  · rfl
  · rfl

/-- C5 (amended): restricted to cells inside a rectangular grid of `"0"`/`"1"`
tokens, `is_empty` returns true iff the cell is not marked as an obstacle.
Out of bounds the code raises `IndexError` or (for small negative
coordinates) wraps around, so the unrestricted claim fails. -/
theorem is_empty_inside_iff {w : World} (hwf : w.wf) (h01 : w.binaryCells)
    {p : Vector2} (hin : w.point_inside p = true) :
    w.is_empty p = some true ↔ ¬ w.getPoint p = some "1" := by
  obtain ⟨row, s, hrow, hs, hgp, hrm, hsm⟩ := getPoint_of_inside hwf hin
  rcases h01 row hrm s hsm with h0 | h1
  · subst h0
    simp [World.is_empty, hgp]
  · subst h1
    simp [World.is_empty, hgp]

/-- Witness for the amended C5 on a concrete grid and in-bounds cell. -/
theorem is_empty_inside_iff_witness :
    (World.mk [["0", "1"]]).wf ∧ (World.mk [["0", "1"]]).binaryCells ∧
    (World.mk [["0", "1"]]).point_inside ⟨0, 0⟩ = true ∧
    ((World.mk [["0", "1"]]).is_empty ⟨0, 0⟩ = some true ↔
      ¬ (World.mk [["0", "1"]]).getPoint ⟨0, 0⟩ = some "1") :=
  ⟨by decide, by decide, by decide,
    is_empty_inside_iff (by decide) (by decide) (by decide)⟩

/-! ## Claim C6: neighbours of an in-bounds cell -/

/-- C6: on a rectangular grid, `neighbours p` for an in-bounds `p` is exactly
the spec's description — of the four axis-aligned adjacent cells, those
inside the grid and passable, in the fixed order left, right, down, up. -/
theorem neighbours_eq_spec {w : World} (hwf : w.wf) {p : Vector2}
    (_hin : w.point_inside p = true) :
    w.neighbours p = specNeighbours w p := by
  unfold World.neighbours specNeighbours
  apply List.filter_congr
  intro n _
  by_cases h : w.point_inside n = true
  · obtain ⟨row, s, hrow, hs, hgp, hrm, hsm⟩ := getPoint_of_inside hwf h
    have hie : w.is_empty n = some (decide (s = "0")) := by
      simp [World.is_empty, hgp]
    have hrow' : w.data[n.y.toNat]? = some row := by simpa using hrow
    have hs' : row[n.x.toNat]? = some s := by simpa using hs
    simp only [specPassable, h, hie, Bool.true_and]
    by_cases h0 : s = "0" <;> simp [h0, hrow', hs']
  · simp only [Bool.not_eq_true] at h
    simp [specPassable, h]

/-- Witness for C6: the obstacle-test grid of the spec at its centre cell. -/
theorem neighbours_eq_spec_witness :
    (World.mk [["0", "0", "1"], ["1", "0", "1"], ["0", "0", "0"]]).wf ∧
    (World.mk [["0", "0", "1"], ["1", "0", "1"], ["0", "0", "0"]]).point_inside
      ⟨1, 1⟩ = true ∧
    (World.mk [["0", "0", "1"], ["1", "0", "1"], ["0", "0", "0"]]).neighbours
      ⟨1, 1⟩ =
      specNeighbours (World.mk [["0", "0", "1"], ["1", "0", "1"], ["0", "0", "0"]])
        ⟨1, 1⟩ :=
  ⟨by decide, by decide, neighbours_eq_spec (by decide) (by decide)⟩

/-! ## Cost-map monotonicity (claim C7) -/

theorem costMono_refl (m : List (Vector2 × Nat)) : CostMono m m :=
  fun _ c h => ⟨c, h, Nat.le_refl c⟩

theorem costMono_trans {a b c : List (Vector2 × Nat)}
    (h1 : CostMono a b) (h2 : CostMono b c) : CostMono a c := by
  intro p v hv
  obtain ⟨v', hv', hle⟩ := h1 p v hv
  obtain ⟨v'', hv'', hle'⟩ := h2 p v' hv'
  exact ⟨v'', hv'', Nat.le_trans hle' hle⟩

/-! ## Cardinality bound for the cost dict -/

theorem vec_ext {a b : Vector2} (hx : a.x = b.x) (hy : a.y = b.y) : a = b := by
  cases a
  cases b
  congr 1

theorem addMul_inj {x1 y1 x2 y2 n : Nat} (h1 : x1 < n) (h2 : x2 < n)
    (heq : x1 + y1 * n = x2 + y2 * n) : x1 = x2 ∧ y1 = y2 := by
  rcases Nat.lt_trichotomy y1 y2 with h | h | h
  · have hm := Nat.mul_le_mul_right n (show y1 + 1 ≤ y2 from h)
    rw [Nat.succ_mul] at hm
    omega
  · subst h
    omega
  · have hm := Nat.mul_le_mul_right n (show y2 + 1 ≤ y1 from h)
    rw [Nat.succ_mul] at hm
    omega

theorem nodup_lt_length_le {l : List Nat} {n : Nat} (hnd : l.Nodup)
    (hb : ∀ x ∈ l, x < n) : l.length ≤ n := by
  have h1 : l.toFinset ⊆ Finset.range n := by
    intro x hx
    rw [Finset.mem_range]
    exact hb x (List.mem_toFinset.mp hx)
  have h2 := Finset.card_le_card h1
  rw [Finset.card_range] at h2
  rw [List.card_toFinset, hnd.dedup] at h2
  exact h2

/-- A point inside the grid decodes to a unique cell number below
`width * height`. -/
theorem inside_mul_bound {w : World} {p : Vector2}
    (hin : w.point_inside p = true) :
    p.x.toNat + p.y.toNat * w.width + 1 ≤ w.width * w.height := by
  simp only [World.point_inside, decide_eq_true_eq] at hin
  obtain ⟨hx0, hxw, hy0, hyh⟩ := hin
  have hx : p.x.toNat + 1 ≤ w.width := by omega
  have hy : p.y.toNat + 1 ≤ w.height := by omega
  have hm := Nat.mul_le_mul_right w.width hy
  rw [Nat.succ_mul] at hm
  have : w.height * w.width = w.width * w.height := Nat.mul_comm _ _
  omega

/-- The cost dict never holds more than `width * height + 1` keys: its keys
are distinct and each is the start or an in-bounds cell. -/
theorem cost_length_le {w : World} {s : Vector2} {m : List (Vector2 × Nat)}
    (hnd : (m.map Prod.fst).Nodup)
    (huniv : ∀ p, (dlookup m p).isSome → p = s ∨ w.point_inside p = true) :
    m.length ≤ gridCap w := by
  have hkey : ∀ k ∈ m.map Prod.fst, k = s ∨ w.point_inside k = true := by
    intro k hk
    apply huniv
    cases hl : dlookup m k with
    | none => exact absurd hk (dlookup_eq_none_iff.mp hl)
    | some v => simp
  set enc : Vector2 → Nat :=
    fun p => if p = s then 0 else 1 + (p.x.toNat + p.y.toNat * w.width) with henc
  have hinj : ∀ a ∈ m.map Prod.fst, ∀ b ∈ m.map Prod.fst,
      enc a = enc b → a = b := by
    intro a ha b hb heq
    by_cases has : a = s <;> by_cases hbs : b = s
    · rw [has, hbs]
    · simp only [henc] at heq
      rw [if_pos has, if_neg hbs] at heq
      exact absurd heq (by omega)
    · simp only [henc] at heq
      rw [if_neg has, if_pos hbs] at heq
      exact absurd heq (by omega)
    · have hain : w.point_inside a = true := (hkey a ha).resolve_left has
      have hbin : w.point_inside b = true := (hkey b hb).resolve_left hbs
      simp only [henc] at heq
      rw [if_neg has, if_neg hbs] at heq
      have haw : a.x.toNat < w.width := by
        simp only [World.point_inside, decide_eq_true_eq] at hain
        omega
      have hbw : b.x.toNat < w.width := by
        simp only [World.point_inside, decide_eq_true_eq] at hbin
        omega
      have hax0 : 0 ≤ a.x ∧ 0 ≤ a.y := by
        simp only [World.point_inside, decide_eq_true_eq] at hain
        exact ⟨hain.1, hain.2.2.1⟩
      have hbx0 : 0 ≤ b.x ∧ 0 ≤ b.y := by
        simp only [World.point_inside, decide_eq_true_eq] at hbin
        exact ⟨hbin.1, hbin.2.2.1⟩
      have heq2 : a.x.toNat + a.y.toNat * w.width =
          b.x.toNat + b.y.toNat * w.width := by omega
      obtain ⟨hx, hy⟩ := addMul_inj haw hbw heq2
      have h1 : a.x = b.x := by omega
      have h2 : a.y = b.y := by omega
      exact vec_ext h1 h2
  have hbound : ∀ x ∈ (m.map Prod.fst).map enc, x < gridCap w := by
    intro x hx
    obtain ⟨k, hk, rfl⟩ := List.mem_map.mp hx
    rcases hkey k hk with rfl | hin
    · simp [henc, gridCap]
    · by_cases hks : k = s
      · simp [henc, hks, gridCap]
      · have := inside_mul_bound hin
        simp only [henc, if_neg hks, gridCap]
        omega
  have hnd2 : ((m.map Prod.fst).map enc).Nodup := List.Nodup.map_on hinj hnd
  have := nodup_lt_length_le hnd2 hbound
  simpa using this

/-! ### Characterisation of one neighbour-relaxation step -/

theorem relaxOne_of_absent {the_end current : Vector2} {st : SState}
    (n : Vector2) (hc : dlookup st.cost current = none) :
    relaxOne the_end current st n = none := by
  unfold relaxOne
  rw [hc]

theorem relaxOne_of_new {the_end current : Vector2} {st : SState} {n : Vector2}
    {c : Nat} (hc : dlookup st.cost current = some c)
    (hn : dlookup st.cost n = none) :
    relaxOne the_end current st n = some (writeSt the_end current st n (c + 1)) := by
  unfold relaxOne
  rw [hc]
  simp [hn]

theorem relaxOne_of_improve {the_end current : Vector2} {st : SState}
    {n : Vector2} {c old : Nat} (hc : dlookup st.cost current = some c)
    (hn : dlookup st.cost n = some old) (him : c + 1 < old) :
    relaxOne the_end current st n = some (writeSt the_end current st n (c + 1)) := by
  unfold relaxOne
  rw [hc]
  simp only [hn]
  simp [him]

theorem relaxOne_of_keep {the_end current : Vector2} {st : SState}
    {n : Vector2} {c old : Nat} (hc : dlookup st.cost current = some c)
    (hn : dlookup st.cost n = some old) (him : ¬ c + 1 < old) :
    relaxOne the_end current st n = some st := by
  unfold relaxOne
  rw [hc]
  simp only [hn]
  simp [him]

/-- Case analysis for `relaxOne` when `cost[current]` is present. -/
theorem relaxOne_cases (the_end : Vector2) {current : Vector2} {st : SState}
    (n : Vector2) {c : Nat} (hc : dlookup st.cost current = some c) :
    ((dlookup st.cost n = none ∨
        ∃ old, dlookup st.cost n = some old ∧ c + 1 < old) ∧
      relaxOne the_end current st n = some (writeSt the_end current st n (c + 1))) ∨
    ((∃ old, dlookup st.cost n = some old ∧ ¬ c + 1 < old) ∧
      relaxOne the_end current st n = some st) := by
  cases hn : dlookup st.cost n with
  | none => exact Or.inl ⟨Or.inl rfl, relaxOne_of_new hc hn⟩
  | some old =>
    by_cases him : c + 1 < old
    · exact Or.inl ⟨Or.inr ⟨old, rfl, him⟩, relaxOne_of_improve hc hn him⟩
    · exact Or.inr ⟨⟨old, rfl, him⟩, relaxOne_of_keep hc hn him⟩

theorem relaxOne_costMono {the_end current : Vector2} {st st' : SState}
    {n : Vector2} (h : relaxOne the_end current st n = some st') :
    CostMono st.cost st'.cost := by
  cases hc : dlookup st.cost current with
  | none => rw [relaxOne_of_absent n hc] at h; exact absurd h (by simp)
  | some c =>
    rcases relaxOne_cases the_end n hc with
      ⟨hguard, heq⟩ | ⟨⟨old, hn, him⟩, heq⟩
    · rw [heq] at h
      injection h with h2
      subst h2
      intro p v hv
      by_cases hp : p = n
      · subst hp
        rcases hguard with hn | ⟨old, hn, him⟩
        · rw [hn] at hv; exact absurd hv (by simp)
        · rw [hn] at hv
          injection hv with hv2
          subst hv2
          refine ⟨c + 1, ?_, Nat.le_of_lt him⟩
          show dlookup (dinsert st.cost p (c + 1)) p = some (c + 1)
          exact dlookup_dinsert_self st.cost p (c + 1)
      · refine ⟨v, ?_, Nat.le_refl v⟩
        show dlookup (dinsert st.cost n (c + 1)) p = some v
        rw [dlookup_dinsert_other st.cost (c + 1) hp]
        exact hv
    · rw [heq] at h
      injection h with h2
      subst h2
      exact costMono_refl st.cost

theorem relaxList_costMono {the_end current : Vector2} :
    ∀ (l : List Vector2) (st st' : SState),
      relaxList the_end current l st = some st' → CostMono st.cost st'.cost := by
  intro l
  induction l with
  | nil =>
    intro st st' h
    simp only [relaxList] at h
    injection h with h2
    subst h2
    exact costMono_refl st.cost
  | cons n ns ih =>
    intro st st' h
    simp only [relaxList] at h
    cases h1 : relaxOne the_end current st n with
    | none => rw [h1] at h; exact absurd h (by simp)
    | some stm =>
      rw [h1] at h
      exact costMono_trans (relaxOne_costMono h1) (ih stm st' h)

/-- C7: across the main loop of one `a_star` execution (from any loop state
to the state at `break` or at frontier exhaustion), the cost map only grows
in keys, and the value recorded for a cell never increases — so a value, when
overwritten at all, strictly decreases. -/
theorem loop_costMono {w : World} {the_end : Vector2} :
    ∀ (fuel : Nat) (st st' : SState),
      (loop w the_end fuel st = .broke st' ∨
        loop w the_end fuel st = .exhausted st') →
      CostMono st.cost st'.cost := by
  intro fuel
  induction fuel with
  | zero =>
    intro st st' h
    rcases h with h | h <;> exact absurd h (by simp [loop])
  | succ f ih =>
    intro st st' h
    by_cases hemp : st.frontier.empty = true
    · have hl : loop w the_end (f + 1) st = .exhausted st := by
        simp [loop, hemp]
      rcases h with h | h <;> rw [hl] at h
      · exact absurd h (by simp)
      · injection h with h2
        subst h2
        exact costMono_refl st.cost
    · cases hpop : st.frontier.pop with
      | mk ocur q' =>
        cases ocur with
        | none =>
          have hl : loop w the_end (f + 1) st = .exhausted st := by
            simp [loop, hemp, hpop]
          rcases h with h | h <;> rw [hl] at h
          · exact absurd h (by simp)
          · injection h with h2
            subst h2
            exact costMono_refl st.cost
        | some current =>
          by_cases hce : current = the_end
          · have hl : loop w the_end (f + 1) st =
                .broke { st with frontier := q' } := by
              simp [loop, hemp, hpop, hce]
            rcases h with h | h <;> rw [hl] at h
            · injection h with h2
              rw [← h2]
              exact costMono_refl st.cost
            · exact absurd h (by simp)
          · cases hrel : relaxList the_end current (w.neighbours current)
                { st with frontier := q' } with
            | none =>
              have hl : loop w the_end (f + 1) st = .keyErr := by
                simp [loop, hemp, hpop, hce, hrel]
              rcases h with h | h <;> rw [hl] at h <;> exact absurd h (by simp)
            | some st2 =>
              have heq : loop w the_end (f + 1) st = loop w the_end f st2 := by
                simp [loop, hemp, hpop, hce, hrel]
              rw [heq] at h
              have h1 := relaxList_costMono _ _ _ hrel
              exact costMono_trans h1 (ih st2 st' h)

/-! ## Preservation of the loop invariant by one relaxation -/

theorem relaxOne_preserve {w : World} {s e : Vector2} {X : Vector2 → Prop}
    {st : SState} {current new_point : Vector2} {ccur : Nat}
    (hc : dlookup st.cost current = some ccur)
    (hn : new_point ∈ w.neighbours current)
    (hinv : InvB w s e X st) :
    ∃ st', relaxOne e current st new_point = some st' ∧
      InvB w s e X st' ∧
      dlookup st'.cost current = some ccur ∧
      (∃ cn, dlookup st'.cost new_point = some cn ∧ cn ≤ ccur + 1) ∧
      CostMono st.cost st'.cost ∧
      (∀ y, y ∈ st.frontier.data → y ∈ st'.frontier.data) ∧
      Mw w st' ≤ Mw w st := by
  have hne_cur : new_point ≠ current := mem_neighbours_ne hn
  rcases relaxOne_cases e new_point hc with
    ⟨hguard, heq⟩ | ⟨⟨old, hnl, him⟩, heq⟩
  swap
  · -- no write: the state is unchanged
    refine ⟨st, heq, hinv, hc, ⟨old, hnl, by omega⟩, costMono_refl _, fun y hy => hy,
      Nat.le_refl _⟩
  · -- the improvement branch
    set st' := writeSt e current st new_point (ccur + 1) with hst'
    have hcost_eq : st'.cost = dinsert st.cost new_point (ccur + 1) := rfl
    have hpar_eq : st'.parent = dinsert st.parent new_point (some current) := rfl
    have hfr_eq : st'.frontier.data =
        st.frontier.data ++
          [(ccur + 1 + cartesian_distance e new_point, new_point)] := rfl
    have hnp_ne_s : new_point ≠ s := by
      intro hns
      rcases hguard with hnone | ⟨old, hsome, him⟩
      · rw [hns, hinv.costStart] at hnone
        exact absurd hnone (by simp)
      · rw [hns, hinv.costStart] at hsome
        injection hsome with h0
        omega
    have lcost_self : dlookup st'.cost new_point = some (ccur + 1) := by
      rw [hcost_eq]; exact dlookup_dinsert_self ..
    have lcost_other : ∀ p, p ≠ new_point →
        dlookup st'.cost p = dlookup st.cost p := by
      intro p hp
      rw [hcost_eq]; exact dlookup_dinsert_other _ _ hp
    have lpar_self : dlookup st'.parent new_point = some (some current) := by
      rw [hpar_eq]; exact dlookup_dinsert_self ..
    have lpar_other : ∀ p, p ≠ new_point →
        dlookup st'.parent p = dlookup st.parent p := by
      intro p hp
      rw [hpar_eq]; exact dlookup_dinsert_other _ _ hp
    have f_nodup : (st'.cost.map Prod.fst).Nodup := by
      rw [hcost_eq]
      rcases hguard with hnone | ⟨old, hsome, _⟩
      · rw [keys_dinsert_of_lookup_none hnone]
        rw [List.nodup_append]
        refine ⟨hinv.nodupCost, by simp, ?_⟩
        intro a ha hb
        simp only [List.mem_singleton] at hb
        subst hb
        exact dlookup_eq_none_iff.mp hnone ha
      · rw [keys_dinsert_of_lookup_some hsome]
        exact hinv.nodupCost
    have f_keysEq : ∀ p : Vector2,
        (dlookup st'.cost p).isSome ↔ (dlookup st'.parent p).isSome := by
      intro p
      by_cases hp : p = new_point
      · subst hp
        rw [lcost_self, lpar_self]
        simp
      · rw [lcost_other p hp, lpar_other p hp]
        exact hinv.keysEq p
    have f_costStart : dlookup st'.cost s = some 0 := by
      rw [lcost_other s (Ne.symm hnp_ne_s)]
      exact hinv.costStart
    have f_parentStart : dlookup st'.parent s = some none := by
      rw [lpar_other s (Ne.symm hnp_ne_s)]
      exact hinv.parentStart
    have f_parentNoneStart : ∀ p, dlookup st'.parent p = some none → p = s := by
      intro p hp
      by_cases hp' : p = new_point
      · subst hp'
        rw [lpar_self] at hp
        injection hp with h0
        exact absurd h0 (by simp)
      · rw [lpar_other p hp'] at hp
        exact hinv.parentNoneStart p hp
    have f_parentAdj : ∀ p q, dlookup st'.parent p = some (some q) →
        p ∈ w.neighbours q := by
      intro p q hp
      by_cases hp' : p = new_point
      · subst hp'
        rw [lpar_self] at hp
        injection hp with h0
        injection h0 with h1
        rw [← h1]
        exact hn
      · rw [lpar_other p hp'] at hp
        exact hinv.parentAdj p q hp
    have f_parentCostLt : ∀ p q, dlookup st'.parent p = some (some q) →
        ∃ cq cp, dlookup st'.cost q = some cq ∧ dlookup st'.cost p = some cp ∧
          cq < cp := by
      intro p q hp
      by_cases hp' : p = new_point
      · subst hp'
        rw [lpar_self] at hp
        injection hp with h0
        injection h0 with h1
        refine ⟨ccur, ccur + 1, ?_, lcost_self, by omega⟩
        rw [← h1, lcost_other current (Ne.symm hne_cur)]
        exact hc
      · rw [lpar_other p hp'] at hp
        obtain ⟨cq, cp, hq, hpl, hlt⟩ := hinv.parentCostLt p q hp
        have hpl' : dlookup st'.cost p = some cp := by
          rw [lcost_other p hp']; exact hpl
        by_cases hq' : q = new_point
        · subst hq'
          refine ⟨ccur + 1, cp, lcost_self, hpl', ?_⟩
          rcases hguard with hnone | ⟨old, hsome, him⟩
          · rw [hnone] at hq
            exact absurd hq (by simp)
          · rw [hsome] at hq
            injection hq with h0
            omega
        · refine ⟨cq, cp, ?_, hpl', hlt⟩
          rw [lcost_other q hq']
          exact hq
    have f_costLB : ∀ p c, dlookup st'.cost p = some c →
        ∃ m, m ≤ c ∧ IsChain w s p m := by
      intro p c hp
      by_cases hp' : p = new_point
      · subst hp'
        rw [lcost_self] at hp
        injection hp with h0
        obtain ⟨m, hm, hch⟩ := hinv.costLB current ccur hc
        exact ⟨m + 1, by omega, chain_snoc hch hn⟩
      · rw [lcost_other p hp'] at hp
        exact hinv.costLB p c hp
    have f_frontierPr : ∀ pr v, (pr, v) ∈ st'.frontier.data →
        ∃ c, dlookup st'.cost v = some c ∧
          (c + cartesian_distance e v ≤ pr ∨ (v = s ∧ c = 0 ∧ pr = 0)) := by
      intro pr v hv
      rw [hfr_eq] at hv
      rcases List.mem_append.mp hv with hv | hv
      · obtain ⟨c0, hc0, hd⟩ := hinv.frontierPr pr v hv
        by_cases hv' : v = new_point
        · subst hv'
          refine ⟨ccur + 1, lcost_self, ?_⟩
          rcases hd with hd | ⟨hvs, _, _⟩
          · left
            rcases hguard with hnone | ⟨old, hsome, him⟩
            · rw [hnone] at hc0
              exact absurd hc0 (by simp)
            · rw [hsome] at hc0
              injection hc0 with h0
              omega
          · exact absurd hvs hnp_ne_s
        · refine ⟨c0, ?_, hd⟩
          rw [lcost_other v hv']
          exact hc0
      · simp only [List.mem_singleton, Prod.mk.injEq] at hv
        obtain ⟨rfl, rfl⟩ := hv
        exact ⟨ccur + 1, lcost_self, Or.inl (Nat.le_refl _)⟩
    have f_costUniv : ∀ p, (dlookup st'.cost p).isSome →
        p = s ∨ w.point_inside p = true := by
      intro p hp
      by_cases hp' : p = new_point
      · subst hp'
        exact Or.inr (mem_neighbours_inside hn)
      · rw [lcost_other p hp'] at hp
        exact hinv.costUniv p hp
    have f_valueBound : ∀ p c, dlookup st'.cost p = some c →
        c + 1 ≤ st'.cost.length := by
      have hccur := hinv.valueBound current ccur hc
      rcases hguard with hnone | ⟨old, hsome, him⟩
      · have hlen : st'.cost.length = st.cost.length + 1 := by
          rw [hcost_eq]; exact length_dinsert_of_lookup_none hnone _
        intro p c hp
        rw [hlen]
        by_cases hp' : p = new_point
        · subst hp'
          rw [lcost_self] at hp
          injection hp with h0
          omega
        · rw [lcost_other p hp'] at hp
          have := hinv.valueBound p c hp
          omega
      · have hlen : st'.cost.length = st.cost.length := by
          rw [hcost_eq]; exact length_dinsert_of_lookup_some hsome _
        intro p c hp
        rw [hlen]
        by_cases hp' : p = new_point
        · subst hp'
          rw [lcost_self] at hp
          injection hp with h0
          have := hinv.valueBound p old hsome
          omega
        · rw [lcost_other p hp'] at hp
          exact hinv.valueBound p c hp
    have f_openRelax : ∀ p, X p → ∀ c, dlookup st'.cost p = some c →
        (∃ pr, (pr, p) ∈ st'.frontier.data ∧
          (pr ≤ c + cartesian_distance e p ∨ pr = 0)) ∨
        (∀ u ∈ w.neighbours p, ∃ cu, dlookup st'.cost u = some cu ∧
          cu ≤ c + 1) := by
      intro p hX c hp
      by_cases hp' : p = new_point
      · subst hp'
        rw [lcost_self] at hp
        injection hp with h0
        subst h0
        left
        refine ⟨ccur + 1 + cartesian_distance e p, ?_, Or.inl (Nat.le_refl _)⟩
        rw [hfr_eq]
        exact List.mem_append_right _ (by simp)
      · rw [lcost_other p hp'] at hp
        rcases hinv.openRelax p hX c hp with ⟨pr, hmem, hd⟩ | hrel
        · left
          exact ⟨pr, by rw [hfr_eq]; exact List.mem_append_left _ hmem, hd⟩
        · right
          intro u hu
          obtain ⟨cu, hcu, hle⟩ := hrel u hu
          by_cases hu' : u = new_point
          · subst hu'
            refine ⟨ccur + 1, lcost_self, ?_⟩
            rcases hguard with hnone | ⟨old, hsome, him⟩
            · rw [hnone] at hcu
              exact absurd hcu (by simp)
            · rw [hsome] at hcu
              injection hcu with h0
              omega
          · refine ⟨cu, ?_, hle⟩
            rw [lcost_other u hu']
            exact hcu
    have hInv' : InvB w s e X st' :=
      ⟨f_nodup, f_keysEq, f_costStart, f_parentStart, f_parentNoneStart,
        f_parentAdj, f_parentCostLt, f_costLB, f_frontierPr, f_costUniv,
        f_valueBound, f_openRelax⟩
    have hMle : Mw w st' ≤ Mw w st := by
      have hccur := hinv.valueBound current ccur hc
      have hflen : st'.frontier.data.length = st.frontier.data.length + 1 := by
        rw [hfr_eq]; simp
      rcases hguard with hnone | ⟨old, hsome, him⟩
      · have hlen : st'.cost.length = st.cost.length + 1 := by
          rw [hcost_eq]; exact length_dinsert_of_lookup_none hnone _
        have hsum : costSum st' = costSum st + (ccur + 1) := by
          simp only [costSum, hcost_eq]
          exact sum_dinsert_of_lookup_none (fun v => v) hnone _
        have hcap : st'.cost.length ≤ gridCap w :=
          cost_length_le f_nodup f_costUniv
        have hsplit : (gridCap w + 1) * (gridCap w - st.cost.length) =
            (gridCap w + 1) * (gridCap w - (st.cost.length + 1)) +
              (gridCap w + 1) := by
          have h1 : gridCap w - st.cost.length =
              (gridCap w - (st.cost.length + 1)) + 1 := by omega
          rw [h1, Nat.mul_add, Nat.mul_one]
        simp only [Mw]
        rw [hlen, hsum, hflen, hsplit]
        omega
      · have hlen : st'.cost.length = st.cost.length := by
          rw [hcost_eq]; exact length_dinsert_of_lookup_some hsome _
        have hsum : costSum st' + old = costSum st + (ccur + 1) := by
          simp only [costSum, hcost_eq]
          exact sum_dinsert_of_lookup_some (fun v => v) hsome _
        simp only [Mw]
        rw [hlen, hflen]
        omega
    refine ⟨st', heq, hInv', ?_, ⟨ccur + 1, lcost_self, Nat.le_refl _⟩,
      relaxOne_costMono heq, ?_, hMle⟩
    · rw [lcost_other current (Ne.symm hne_cur)]
      exact hc
    · intro y hy
      rw [hfr_eq]
      exact List.mem_append_left _ hy

/-! ## Preservation across the whole neighbour loop, and one iteration -/

theorem relaxList_preserve {w : World} {s e : Vector2} {X : Vector2 → Prop}
    {current : Vector2} {ccur : Nat} :
    ∀ (l : List Vector2) (st : SState),
      dlookup st.cost current = some ccur →
      (∀ n ∈ l, n ∈ w.neighbours current) →
      InvB w s e X st →
      ∃ st', relaxList e current l st = some st' ∧
        InvB w s e X st' ∧
        dlookup st'.cost current = some ccur ∧
        (∀ n ∈ l, ∃ cn, dlookup st'.cost n = some cn ∧ cn ≤ ccur + 1) ∧
        CostMono st.cost st'.cost ∧
        (∀ y, y ∈ st.frontier.data → y ∈ st'.frontier.data) ∧
        Mw w st' ≤ Mw w st := by
  intro l
  induction l with
  | nil =>
    intro st hc _ hinv
    exact ⟨st, rfl, hinv, hc, by simp, costMono_refl _, fun y hy => hy,
      Nat.le_refl _⟩
  | cons n ns ih =>
    intro st hc hl hinv
    obtain ⟨st1, heq1, hinv1, hc1, ⟨cn, hcn, hcnle⟩, hmono1, hfr1, hM1⟩ :=
      relaxOne_preserve hc (hl n (by simp)) hinv
    obtain ⟨st2, heq2, hinv2, hc2, hall2, hmono2, hfr2, hM2⟩ :=
      ih st1 hc1 (fun m hm => hl m (by simp [hm])) hinv1
    refine ⟨st2, ?_, hinv2, hc2, ?_, costMono_trans hmono1 hmono2,
      fun y hy => hfr2 y (hfr1 y hy), Nat.le_trans hM2 hM1⟩
    · simp only [relaxList, heq1]
      exact heq2
    · intro m hm
      rcases List.mem_cons.mp hm with rfl | hm
      · obtain ⟨c', hc', hle'⟩ := hmono2 m cn hcn
        exact ⟨c', hc', by omega⟩
      · exact hall2 m hm

theorem pop_facts {st : SState} {pr0 : Nat} {cur : Vector2}
    {rest : List (Nat × Vector2)}
    (h : psort st.frontier.data = (pr0, cur) :: rest) :
    (pr0, cur) ∈ st.frontier.data ∧ (∀ y ∈ st.frontier.data, pr0 ≤ y.1) ∧
      (∀ y ∈ rest, y ∈ st.frontier.data) := by
  have hperm := psort_perm st.frontier.data
  rw [h] at hperm
  refine ⟨hperm.mem_iff.mp (by simp), ?_, ?_⟩
  · intro y hy
    have hy2 : y ∈ (pr0, cur) :: rest := hperm.mem_iff.mpr hy
    have hsorted := psort_sorted st.frontier.data
    rw [h] at hsorted
    rcases List.mem_cons.mp hy2 with rfl | hy2
    · exact Nat.le_refl _
    · exact (List.pairwise_cons.mp hsorted).1 y hy2
  · intro y hy
    exact hperm.mem_iff.mp (List.mem_cons_of_mem _ hy)

theorem pop_invariant {w : World} {s e : Vector2} {st : SState} {pr0 : Nat}
    {cur : Vector2} {rest : List (Nat × Vector2)}
    (h : psort st.frontier.data = (pr0, cur) :: rest)
    (hinv : Inv w s e st) :
    InvB w s e (fun p => p ≠ cur) { st with frontier := ⟨rest⟩ } := by
  obtain ⟨hmem, hmin, hsub⟩ := pop_facts h
  have hperm := psort_perm st.frontier.data
  rw [h] at hperm
  refine ⟨hinv.nodupCost, hinv.keysEq, hinv.costStart, hinv.parentStart,
    hinv.parentNoneStart, hinv.parentAdj, hinv.parentCostLt, hinv.costLB,
    ?_, hinv.costUniv, hinv.valueBound, ?_⟩
  · intro pr v hv
    exact hinv.frontierPr pr v (hsub _ hv)
  · intro p hpc c hp
    rcases hinv.openRelax p trivial c hp with ⟨pr, hprm, hd⟩ | hrel
    · left
      refine ⟨pr, ?_, hd⟩
      have : (pr, p) ∈ (pr0, cur) :: rest := hperm.mem_iff.mpr hprm
      rcases List.mem_cons.mp this with hh | hh
      · exact absurd (congrArg Prod.snd hh) (by simpa using hpc)
      · exact hh
    · exact Or.inr hrel

theorem loop_iter {w : World} {s e : Vector2} {st : SState} {pr0 : Nat}
    {cur : Vector2} {rest : List (Nat × Vector2)}
    (h : psort st.frontier.data = (pr0, cur) :: rest)
    (hinv : Inv w s e st) :
    ∃ st2,
      relaxList e cur (w.neighbours cur) { st with frontier := ⟨rest⟩ } =
        some st2 ∧
      Inv w s e st2 ∧ Mw w st2 < Mw w st := by
  obtain ⟨hmem, hminpr, hrestsub⟩ := pop_facts h
  obtain ⟨ccur, hccur, _⟩ := hinv.frontierPr pr0 cur hmem
  have hinv1 := pop_invariant h hinv
  have hc1 : dlookup ({ st with frontier := ⟨rest⟩ } : SState).cost cur =
      some ccur := hccur
  obtain ⟨st2, heq, hinv2, hc2, hall, hmono, hfr, hM⟩ :=
    relaxList_preserve (w := w) (s := s) (e := e) _ _ hc1 (fun n hn => hn) hinv1
  refine ⟨st2, heq, ?_, ?_⟩
  · refine ⟨hinv2.nodupCost, hinv2.keysEq, hinv2.costStart, hinv2.parentStart,
      hinv2.parentNoneStart, hinv2.parentAdj, hinv2.parentCostLt, hinv2.costLB,
      hinv2.frontierPr, hinv2.costUniv, hinv2.valueBound, ?_⟩
    intro p _ c hp
    by_cases hpc : p = cur
    · subst hpc
      right
      intro u hu
      rw [hc2] at hp
      injection hp with h0
      obtain ⟨cn, hcn, hle⟩ := hall u hu
      exact ⟨cn, hcn, by omega⟩
    · exact hinv2.openRelax p hpc c hp
  · have h1 : ({ st with frontier := ⟨rest⟩ } : SState).cost = st.cost := rfl
    have h2 : costSum { st with frontier := ⟨rest⟩ } = costSum st := rfl
    have h3 : ({ st with frontier := ⟨rest⟩ } : SState).frontier.data = rest := rfl
    have hlen := (psort_perm st.frontier.data).length_eq
    rw [h] at hlen
    simp only [List.length_cons] at hlen
    have hM1 : Mw w ({ st with frontier := ⟨rest⟩ } : SState) + 1 = Mw w st := by
      simp only [Mw, h1, h2, h3]
      omega
    omega

theorem loop_succ_empty {w : World} {e : Vector2} {fuel : Nat} {st : SState}
    (h : st.frontier.data = []) : loop w e (fuel + 1) st = .exhausted st := by
  simp [loop, PriorityQueue.empty, h]

theorem loop_succ_pop {w : World} {e : Vector2} {fuel : Nat} {st : SState}
    {pr0 : Nat} {cur : Vector2} {rest : List (Nat × Vector2)}
    (h : psort st.frontier.data = (pr0, cur) :: rest) :
    loop w e (fuel + 1) st =
      if cur = e then .broke { st with frontier := ⟨rest⟩ }
      else
        match relaxList e cur (w.neighbours cur)
            { st with frontier := ⟨rest⟩ } with
        | none => .keyErr
        | some st2 => loop w e fuel st2 := by
  have hne : st.frontier.data ≠ [] := by
    intro h0
    rw [h0] at h
    simp [psort] at h
  have hemp : st.frontier.empty = false := by
    simp only [PriorityQueue.empty]
    cases hd : st.frontier.data with
    | nil => exact absurd hd hne
    | cons a l => simp
  have hpop : st.frontier.pop = (some cur, ⟨rest⟩) := by
    simp [PriorityQueue.pop, h]
  simp [loop, hemp, hpop]

/-! ## The initial state and the full run of the main loop -/

theorem inv_init {w : World} (s e : Vector2) : Inv w s e (initState s) := by
  have hdata : (initState s).frontier.data = [(0, s)] := rfl
  have hcost : (initState s).cost = [(s, 0)] := rfl
  have hpar : (initState s).parent = [(s, none)] := rfl
  refine ⟨?_, ?_, ?_, ?_, ?_, ?_, ?_, ?_, ?_, ?_, ?_, ?_⟩
  · rw [hcost]; simp
  · intro p
    rw [hcost, hpar]
    by_cases hps : p = s <;> simp [dlookup, hps]
  · rw [hcost]; simp [dlookup]
  · rw [hpar]; simp [dlookup]
  · intro p hp
    rw [hpar] at hp
    by_cases hps : p = s
    · exact hps
    · simp [dlookup, hps] at hp
  · intro p q hp
    rw [hpar] at hp
    by_cases hps : p = s <;> simp [dlookup, hps] at hp
  · intro p q hp
    rw [hpar] at hp
    by_cases hps : p = s <;> simp [dlookup, hps] at hp
  · intro p c hp
    rw [hcost] at hp
    by_cases hps : p = s
    · subst hps
      simp [dlookup] at hp
      exact ⟨0, by omega, hp ▸ IsChain.nil p⟩
    · simp [dlookup, hps] at hp
  · intro pr v hv
    rw [hdata] at hv
    simp only [List.mem_singleton, Prod.mk.injEq] at hv
    obtain ⟨rfl, rfl⟩ := hv
    rw [hcost]
    exact ⟨0, by simp [dlookup], Or.inr ⟨rfl, rfl, rfl⟩⟩
  · intro p hp
    rw [hcost] at hp
    by_cases hps : p = s
    · exact Or.inl hps
    · simp [dlookup, hps] at hp
  · intro p c hp
    rw [hcost] at hp
    by_cases hps : p = s
    · subst hps
      simp [dlookup] at hp
      simp only [hcost, List.length_cons, List.length_nil]
      omega
    · simp [dlookup, hps] at hp
  · intro p _ c hp
    rw [hcost] at hp
    by_cases hps : p = s
    · subst hps
      simp [dlookup] at hp
      left
      refine ⟨0, ?_, Or.inr rfl⟩
      rw [hdata]
      simp
    · simp [dlookup, hps] at hp

/-- The main loop, from any invariant state, reaches `break` on popping the
goal or exhausts its frontier, in finitely many iterations. -/
theorem loop_run {w : World} {s e : Vector2} :
    ∀ (N : Nat) (st : SState), Inv w s e st → Mw w st ≤ N →
      ∃ fuel,
        (∃ stb pr0 rest,
          loop w e fuel st = .broke { stb with frontier := ⟨rest⟩ } ∧
          Inv w s e stb ∧ psort stb.frontier.data = (pr0, e) :: rest) ∨
        (∃ stx, loop w e fuel st = .exhausted stx ∧ Inv w s e stx ∧
          stx.frontier.data = []) := by
  intro N
  induction N with
  | zero =>
    intro st hinv hM
    cases hd : st.frontier.data with
    | nil => exact ⟨1, Or.inr ⟨st, loop_succ_empty hd, hinv, hd⟩⟩
    | cons a l =>
      exfalso
      have : st.frontier.data.length = l.length + 1 := by rw [hd]; simp
      simp only [Mw] at hM
      omega
  | succ N ih =>
    intro st hinv hM
    cases hd : st.frontier.data with
    | nil => exact ⟨1, Or.inr ⟨st, loop_succ_empty hd, hinv, hd⟩⟩
    | cons a l =>
      have hne : st.frontier.data ≠ [] := by rw [hd]; simp
      cases hps : psort st.frontier.data with
      | nil => exact absurd (psort_eq_nil_iff.mp hps) hne
      | cons x rest =>
        obtain ⟨pr0, cur⟩ := x
        by_cases hcur : cur = e
        · subst hcur
          refine ⟨1, Or.inl ⟨st, pr0, rest, ?_, hinv, hps⟩⟩
          rw [loop_succ_pop hps]
          simp
        · obtain ⟨st2, hrel, hinv2, hMlt⟩ := loop_iter hps hinv
          obtain ⟨fuel, hres⟩ := ih st2 hinv2 (by omega)
          refine ⟨fuel + 1, ?_⟩
          have hstep : loop w e (fuel + 1) st = loop w e fuel st2 := by
            rw [loop_succ_pop hps]
            simp [hcur, hrel]
          rw [hstep]
          exact hres

/-! ## Cost of the goal at loop exit -/

/-- Along any passable chain ending at `e`, if no frontier entry has priority
at most `D`, the recorded costs relax all the way to `e` within budget `D`:
the A* optimality argument with the Manhattan heuristic's admissibility. -/
theorem relaxed_chain {w : World} {s e : Vector2} {st : SState} {D : Nat}
    (hinv : Inv w s e st)
    (hbar : ∀ y ∈ st.frontier.data, D < y.1) :
    ∀ {v t : Vector2} {m : Nat}, IsChain w v t m → t = e →
      ∀ cv, dlookup st.cost v = some cv → cv + m ≤ D →
      ∃ ce, dlookup st.cost e = some ce ∧ ce ≤ D := by
  intro v t m hch
  induction hch with
  | nil a =>
    intro ht cv hcv hle
    subst ht
    exact ⟨cv, hcv, by omega⟩
  | @cons a b t' n hab hrest ih =>
    intro ht cv hcv hle
    rcases hinv.openRelax a trivial cv hcv with ⟨pr, hmem, hd⟩ | hrel
    · exfalso
      have hDpr := hbar _ hmem
      rcases hd with hd | hd
      · have hman : cartesian_distance e a ≤ n + 1 := by
          rw [← ht]
          exact chain_manhattan (IsChain.cons hab hrest)
        omega
      · omega
    · obtain ⟨cb, hcb, hcble⟩ := hrel b hab
      exact ih ht cb hcb (by omega)

/-- When the loop exhausts the frontier, every cell connected to the start is
costed, with a cost at most the length of any connecting chain. -/
theorem exhausted_cost_e {w : World} {s e : Vector2} {st : SState} {n : Nat}
    (hinv : Inv w s e st) (hemp : st.frontier.data = [])
    (hch : IsChain w s e n) :
    ∃ ce, dlookup st.cost e = some ce ∧ ce ≤ n := by
  have hbar : ∀ y ∈ st.frontier.data, n < y.1 := by rw [hemp]; simp
  exact relaxed_chain hinv hbar hch rfl 0 hinv.costStart (by omega)

/-- When the goal is popped, its recorded cost is at most the length of any
connecting chain: the popped entry has minimal priority, and the heuristic
vanishes at the goal. -/
theorem broke_cost_e {w : World} {s e : Vector2} {st : SState} {pr0 : Nat}
    {rest : List (Nat × Vector2)} (hinv : Inv w s e st)
    (hps : psort st.frontier.data = (pr0, e) :: rest) :
    ∃ ce, dlookup st.cost e = some ce ∧ ∀ n, IsChain w s e n → ce ≤ n := by
  obtain ⟨hmem, hmin, _⟩ := pop_facts hps
  obtain ⟨ce, hce, hd⟩ := hinv.frontierPr pr0 e hmem
  refine ⟨ce, hce, ?_⟩
  intro n hch
  rcases hd with hd | ⟨_, hce0, _⟩
  · have hdist : cartesian_distance e e = 0 := by simp [cartesian_distance]
    rw [hdist] at hd
    by_cases hex : ∃ y ∈ st.frontier.data, y.1 ≤ n
    · obtain ⟨y, hy, hyn⟩ := hex
      have := hmin y hy
      omega
    · push_neg at hex
      obtain ⟨ce', hce', hle'⟩ :=
        relaxed_chain hinv hex hch rfl 0 hinv.costStart (by omega)
      rw [hce] at hce'
      injection hce' with h0
      omega
  · omega

/-! ## The parent chains the reconstruction walks -/

theorem pchain_exists {w : World} {s e : Vector2} {st : SState}
    (hinv : Inv w s e st) :
    ∀ (c : Nat) (p : Vector2), dlookup st.cost p = some c →
      ∃ l, PChain st.parent s p l ∧ l.length ≤ c := by
  intro c
  induction c using Nat.strong_induction_on with
  | _ c ih =>
    intro p hp
    by_cases hps : p = s
    · subst hps
      exact ⟨[], PChain.base, by simp⟩
    · have hpar : (dlookup st.parent p).isSome := (hinv.keysEq p).mp (by simp [hp])
      cases hv : dlookup st.parent p with
      | none => rw [hv] at hpar; exact absurd hpar (by simp)
      | some v =>
        cases v with
        | none => exact absurd (hinv.parentNoneStart p hv) hps
        | some q =>
          obtain ⟨cq, cp, hq, hp', hlt⟩ := hinv.parentCostLt p q hv
          rw [hp] at hp'
          injection hp' with h0
          obtain ⟨l, hpl, hlen⟩ := ih cq (by omega) q hq
          refine ⟨q :: l, PChain.step hps hv hpl, ?_⟩
          simp only [List.length_cons]
          omega

theorem recLoop_of_pchain {par : List (Vector2 × Option Vector2)} {s : Vector2} :
    ∀ {p : Vector2} {l : List Vector2}, PChain par s p l →
      ∀ (acc : List (Option Vector2)) (fuel : Nat), l.length < fuel →
      recLoop par s fuel (some p) acc = .ok (acc ++ l.map some) := by
  intro p l hch
  induction hch with
  | base =>
    intro acc fuel hf
    cases fuel with
    | zero => omega
    | succ f => simp [recLoop]
  | @step p' q l' hne hl hch ih =>
    intro acc fuel hf
    cases fuel with
    | zero => simp at hf
    | succ f =>
      have hnot : ¬ (some p' = some s) := by simpa using hne
      simp only [List.length_cons] at hf
      simp only [recLoop, if_neg hnot, hl]
      rw [ih (acc ++ [some q]) f (by omega)]
      simp

theorem recLoop_ok_chain {par : List (Vector2 × Option Vector2)} {s : Vector2} :
    ∀ (fuel : Nat) (cur : Option Vector2) (acc res : List (Option Vector2)),
      recLoop par s fuel cur acc = .ok res →
      ∀ p, cur = some p → ∃ l, PChain par s p l ∧ res = acc ++ l.map some := by
  intro fuel
  induction fuel with
  | zero =>
    intro cur acc res h p hcur
    simp [recLoop] at h
  | succ f ih =>
    intro cur acc res h p hcur
    subst hcur
    by_cases hps : (some p : Option Vector2) = some s
    · simp only [recLoop, if_pos hps] at h
      injection h with h0
      have hp : p = s := by simpa using hps
      subst hp
      exact ⟨[], PChain.base, by simp [h0]⟩
    · simp only [recLoop, if_neg hps] at h
      cases hv : dlookup par p with
      | none => rw [hv] at h; exact absurd h (by simp)
      | some v =>
        rw [hv] at h
        cases v with
        | none =>
          exfalso
          cases f with
          | zero => simp [recLoop] at h
          | succ f2 =>
            have hne2 : ¬ ((none : Option Vector2) = some s) := by simp
            simp [recLoop, hne2] at h
        | some q =>
          obtain ⟨l, hpl, hres⟩ := ih (some q) (acc ++ [some q]) res h q rfl
          have hp_ne : p ≠ s := fun hh => hps (by rw [hh])
          refine ⟨q :: l, PChain.step hp_ne hv hpl, ?_⟩
          rw [hres]
          simp

theorem recLoop_noPath {par : List (Vector2 × Option Vector2)}
    {s e : Vector2} {fuel : Nat} (hne : e ≠ s) (hnone : dlookup par e = none)
    (hf : 1 ≤ fuel) : recLoop par s fuel (some e) [] = .noPath := by
  obtain ⟨f, rfl⟩ : ∃ f, fuel = f + 1 := ⟨fuel - 1, by omega⟩
  have hnot : ¬ (some e = some s) := by simpa using hne
  simp [recLoop, hnot, hnone]

theorem pchain_getLast {par : List (Vector2 × Option Vector2)} {s : Vector2} :
    ∀ {p : Vector2} {l : List Vector2}, PChain par s p l →
      (p :: l).getLast? = some s := by
  intro p l h
  induction h with
  | base => rfl
  | @step p' q l' hne hl hch ih =>
    rw [List.getLast?_cons_cons]
    exact ih

theorem pchain_adjacent {w : World} {s e : Vector2} {st : SState}
    (hinv : Inv w s e st) :
    ∀ {p : Vector2} {l : List Vector2}, PChain st.parent s p l →
      List.Chain' (fun a b => a ∈ w.neighbours b) (p :: l) := by
  intro p l h
  induction h with
  | base => simp
  | @step p' q l' hne hl hch ih =>
    exact List.chain'_cons.mpr ⟨hinv.parentAdj _ _ hl, ih⟩

theorem pchain_ischain {w : World} {s e : Vector2} {st : SState}
    (hinv : Inv w s e st) :
    ∀ {p : Vector2} {l : List Vector2}, PChain st.parent s p l →
      IsChain w s p l.length := by
  intro p l h
  induction h with
  | base => exact IsChain.nil s
  | @step p' q l' hne hl hch ih =>
    simpa using chain_snoc ih (hinv.parentAdj _ _ hl)

theorem pchain_pairwise {w : World} {s e : Vector2} {st : SState}
    (hinv : Inv w s e st) :
    ∀ {p : Vector2} {l : List Vector2}, PChain st.parent s p l →
      List.Pairwise
        (fun a b => (dlookup st.cost b).getD 0 < (dlookup st.cost a).getD 0)
        (p :: l) := by
  intro p l h
  induction h with
  | base => simp
  | @step p' q l' hne hl hch ih =>
    refine List.pairwise_cons.mpr ⟨?_, ih⟩
    obtain ⟨cq, cp, hcq, hcp, hlt⟩ := hinv.parentCostLt p' q hl
    have hq : (dlookup st.cost q).getD 0 < (dlookup st.cost p').getD 0 := by
      rw [hcq, hcp]
      simpa using hlt
    intro z hz
    rcases List.mem_cons.mp hz with rfl | hz
    · exact hq
    · have := (List.pairwise_cons.mp ih).1 z hz
      omega

theorem pchain_nodup {w : World} {s e : Vector2} {st : SState}
    (hinv : Inv w s e st) {p : Vector2} {l : List Vector2}
    (h : PChain st.parent s p l) : (p :: l).Nodup := by
  have := pchain_pairwise hinv h
  refine this.imp ?_
  intro a b hab
  intro hemp
  subst hemp
  omega

/-! ## Fuel monotonicity and invariant transport of the main loop -/

theorem pop_inv_eq {α : Type} {q : PriorityQueue α} {a : α}
    {q' : PriorityQueue α} (h : q.pop = (some a, q')) :
    ∃ pr rest, psort q.data = (pr, a) :: rest ∧ q' = ⟨rest⟩ := by
  unfold PriorityQueue.pop at h
  cases hps : psort q.data with
  | nil => rw [hps] at h; exact absurd h (by simp)
  | cons x rest =>
    rw [hps] at h
    obtain ⟨x1, x2⟩ := x
    simp only [Prod.mk.injEq] at h
    obtain ⟨h1, h2⟩ := h
    injection h1 with h1
    exact ⟨x1, rest, by rw [h1], h2.symm⟩

theorem loop_fuel_mono {w : World} {e : Vector2} :
    ∀ (fuel : Nat) (st : SState) (r : LoopRes), loop w e fuel st = r →
      r ≠ .fuelOut → ∀ fuel', fuel ≤ fuel' → loop w e fuel' st = r := by
  intro fuel
  induction fuel with
  | zero =>
    intro st r h hr
    simp only [loop] at h
    exact absurd h.symm (by simpa using hr)
  | succ f ih =>
    intro st r h hr fuel' hle
    obtain ⟨f', rfl⟩ : ∃ f', fuel' = f' + 1 := ⟨fuel' - 1, by omega⟩
    cases hd : st.frontier.data with
    | nil =>
      rw [loop_succ_empty hd] at h
      rw [loop_succ_empty hd]
      exact h
    | cons x l =>
      have hne : st.frontier.data ≠ [] := by rw [hd]; simp
      cases hps : psort st.frontier.data with
      | nil => exact absurd (psort_eq_nil_iff.mp hps) hne
      | cons y rest =>
        obtain ⟨pr0, cur⟩ := y
        rw [loop_succ_pop hps] at h
        rw [loop_succ_pop hps]
        by_cases hcur : cur = e
        · rw [if_pos hcur] at h ⊢
          exact h
        · rw [if_neg hcur] at h ⊢
          cases hrel : relaxList e cur (w.neighbours cur)
              { st with frontier := ⟨rest⟩ } with
          | none =>
            rw [hrel] at h
            exact h
          | some st2 =>
            rw [hrel] at h
            exact ih st2 r h hr f' (by omega)

/-- Any terminating run of the main loop from an invariant state leaves the
parent and cost dicts of some invariant state. -/
theorem loop_inv_transport {w : World} {s e : Vector2} :
    ∀ (fuel : Nat) (st st' : SState), Inv w s e st →
      (loop w e fuel st = .broke st' ∨ loop w e fuel st = .exhausted st') →
      ∃ stI, Inv w s e stI ∧ st'.parent = stI.parent ∧ st'.cost = stI.cost := by
  intro fuel
  induction fuel with
  | zero =>
    intro st st' hinv h
    rcases h with h | h <;> exact absurd h (by simp [loop])
  | succ f ih =>
    intro st st' hinv h
    cases hd : st.frontier.data with
    | nil =>
      rw [loop_succ_empty hd] at h
      rcases h with h | h
      · exact absurd h (by simp)
      · injection h with h0
        subst h0
        exact ⟨st, hinv, rfl, rfl⟩
    | cons x l =>
      have hne : st.frontier.data ≠ [] := by rw [hd]; simp
      cases hps : psort st.frontier.data with
      | nil => exact absurd (psort_eq_nil_iff.mp hps) hne
      | cons y rest =>
        obtain ⟨pr0, cur⟩ := y
        rw [loop_succ_pop hps] at h
        by_cases hcur : cur = e
        · rw [if_pos hcur] at h
          rcases h with h | h
          · injection h with h0
            subst h0
            exact ⟨st, hinv, rfl, rfl⟩
          · exact absurd h (by simp)
        · rw [if_neg hcur] at h
          obtain ⟨st2, hrel, hinv2, _⟩ := loop_iter hps hinv
          rw [hrel] at h
          exact ih st2 st' hinv2 h

/-! ## Full runs of `a_star` -/

theorem a_star_of_broke_ok {w : World} {s e : Vector2} {fuel : Nat}
    {st' : SState} {acc : List (Option Vector2)}
    (h : loop w e fuel (initState s) = .broke st')
    (hrec : recLoop st'.parent s fuel (some e) [] = .ok acc) :
    a_star fuel s e w = .path ((some e :: acc).reverse) := by
  unfold a_star
  rw [h]
  have h2 : (match recLoop st'.parent s fuel (some e) [] with
      | RecRes.fuelOut => AStarRes.fuelOut
      | RecRes.noPath => AStarRes.noPath
      | RecRes.ok acc => AStarRes.path ((some e :: acc).reverse)) =
      AStarRes.path ((some e :: acc).reverse) := by
    rw [hrec]
  exact h2

theorem a_star_of_exhausted_ok {w : World} {s e : Vector2} {fuel : Nat}
    {st' : SState} {acc : List (Option Vector2)}
    (h : loop w e fuel (initState s) = .exhausted st')
    (hrec : recLoop st'.parent s fuel (some e) [] = .ok acc) :
    a_star fuel s e w = .path ((some e :: acc).reverse) := by
  unfold a_star
  rw [h]
  have h2 : (match recLoop st'.parent s fuel (some e) [] with
      | RecRes.fuelOut => AStarRes.fuelOut
      | RecRes.noPath => AStarRes.noPath
      | RecRes.ok acc => AStarRes.path ((some e :: acc).reverse)) =
      AStarRes.path ((some e :: acc).reverse) := by
    rw [hrec]
  exact h2

theorem a_star_of_exhausted_noPath {w : World} {s e : Vector2} {fuel : Nat}
    {st' : SState}
    (h : loop w e fuel (initState s) = .exhausted st')
    (hrec : recLoop st'.parent s fuel (some e) [] = .noPath) :
    a_star fuel s e w = .noPath := by
  unfold a_star
  rw [h]
  have h2 : (match recLoop st'.parent s fuel (some e) [] with
      | RecRes.fuelOut => AStarRes.fuelOut
      | RecRes.noPath => AStarRes.noPath
      | RecRes.ok acc => AStarRes.path ((some e :: acc).reverse)) =
      AStarRes.noPath := by
    rw [hrec]
  exact h2

/-- Master lemma: when a passable chain of length `n` connects `s` to `e`,
some fuel makes `a_star` return a reconstructed path; the path is the
reverse of `e :: l` for a parent chain `l` whose length is bounded by the
recorded cost of `e`, itself at most `n`. -/
theorem astar_success {w : World} {s e : Vector2} {n : Nat}
    (hch : IsChain w s e n) :
    ∃ (F : Nat) (l : List Vector2) (ce : Nat),
      a_star F s e w = .path (((e :: l).reverse).map some) ∧
      l.length ≤ ce ∧ ce ≤ n ∧
      IsChain w s e l.length ∧
      (e :: l).getLast? = some s ∧
      List.Chain' (fun a b => a ∈ w.neighbours b) (e :: l) ∧
      (e :: l).Nodup := by
  obtain ⟨fuel, hres⟩ := loop_run (w := w) (s := s) (e := e)
    (Mw w (initState s)) (initState s) (inv_init s e) (Nat.le_refl _)
  rcases hres with ⟨stb, pr0, rest, hloop, hinvb, hps⟩ |
    ⟨stx, hloop, hinvx, hempx⟩
  · obtain ⟨ce, hce, hcemin⟩ := broke_cost_e hinvb hps
    obtain ⟨l, hpl, hlen⟩ := pchain_exists hinvb ce e hce
    refine ⟨max fuel (ce + 1), l, ce, ?_, hlen, hcemin n hch,
      pchain_ischain hinvb hpl, pchain_getLast hpl,
      pchain_adjacent hinvb hpl, pchain_nodup hinvb hpl⟩
    have hloop' : loop w e (max fuel (ce + 1)) (initState s) =
        .broke { stb with frontier := ⟨rest⟩ } :=
      loop_fuel_mono fuel _ _ hloop (by simp) _ (Nat.le_max_left _ _)
    have hrecF : recLoop stb.parent s (max fuel (ce + 1)) (some e) [] =
        .ok ([] ++ l.map some) :=
      recLoop_of_pchain hpl [] _ (by
        have := Nat.le_max_right fuel (ce + 1)
        omega)
    have hrecF' : recLoop ({ stb with frontier := ⟨rest⟩ } : SState).parent s
        (max fuel (ce + 1)) (some e) [] = .ok ([] ++ l.map some) := hrecF
    rw [a_star_of_broke_ok hloop' hrecF']
    simp [List.map_reverse]
  · obtain ⟨ce, hce, hcele⟩ := exhausted_cost_e hinvx hempx hch
    obtain ⟨l, hpl, hlen⟩ := pchain_exists hinvx ce e hce
    refine ⟨max fuel (ce + 1), l, ce, ?_, hlen, hcele,
      pchain_ischain hinvx hpl, pchain_getLast hpl,
      pchain_adjacent hinvx hpl, pchain_nodup hinvx hpl⟩
    have hloop' : loop w e (max fuel (ce + 1)) (initState s) =
        .exhausted stx :=
      loop_fuel_mono fuel _ _ hloop (by simp) _ (Nat.le_max_left _ _)
    have hrecF : recLoop stx.parent s (max fuel (ce + 1)) (some e) [] =
        .ok ([] ++ l.map some) :=
      recLoop_of_pchain hpl [] _ (by
        have := Nat.le_max_right fuel (ce + 1)
        omega)
    rw [a_star_of_exhausted_ok hloop' hrecF]
    simp [List.map_reverse]

/-- C1: for a rectangular grid, in-bounds passable start and end, and a
connecting passable route, `a_star` returns a path whose edge count equals
the length `n` of the true shortest 4-directional route (`n` is minimal
among all chain lengths). -/
theorem astar_shortest {w : World} {s e : Vector2} {n : Nat}
    (_hwf : w.wf) (_hs_in : w.point_inside s = true)
    (_hs_pass : w.is_empty s = some true) (_he_in : w.point_inside e = true)
    (_he_pass : w.is_empty e = some true)
    (hch : IsChain w s e n) (hmin : ∀ m, IsChain w s e m → n ≤ m) :
    ∃ (F : Nat) (ps : List Vector2), a_star F s e w = .path (ps.map some) ∧
      ps.length = n + 1 := by
  obtain ⟨F, l, ce, hrun, hlen, hle, hchain, _, _, _⟩ := astar_success hch
  have h1 : n ≤ l.length := hmin _ hchain
  refine ⟨F, (e :: l).reverse, hrun, ?_⟩
  simp only [List.length_reverse, List.length_cons]
  omega

/-- C2: for a rectangular grid, in-bounds passable start and end, and a
connecting passable route, the list `a_star` returns begins with `start`,
ends with `end`, steps by Manhattan distance exactly 1, and repeats no
cell. -/
theorem astar_path_props {w : World} {s e : Vector2} {n : Nat}
    (_hwf : w.wf) (_hs_in : w.point_inside s = true)
    (_hs_pass : w.is_empty s = some true) (_he_in : w.point_inside e = true)
    (_he_pass : w.is_empty e = some true)
    (hch : IsChain w s e n) :
    ∃ (F : Nat) (ps : List Vector2), a_star F s e w = .path (ps.map some) ∧
      ps.head? = some s ∧ ps.getLast? = some e ∧
      List.Chain' (fun a b => cartesian_distance a b = 1) ps ∧ ps.Nodup := by
  obtain ⟨F, l, ce, hrun, _, _, _, hlast, hadj, hnd⟩ := astar_success hch
  refine ⟨F, (e :: l).reverse, hrun, ?_, ?_, ?_, ?_⟩
  · rw [List.head?_reverse]
    exact hlast
  · rw [List.getLast?_reverse]
    rfl
  · rw [List.chain'_reverse]
    refine List.Chain'.imp ?_ hadj
    intro a b hab
    exact mem_neighbours_dist hab
  · exact List.nodup_reverse.mpr hnd

/-- C3: when no passable route connects start and end, `a_star` reports the
single "no path" outcome (`err("No path could be found.")`), not an uncaught
exception and not a partial path. -/
theorem astar_noPath {w : World} {s e : Vector2} (_hwf : w.wf)
    (hnch : ∀ n, ¬ IsChain w s e n) :
    ∃ F, a_star F s e w = .noPath := by
  obtain ⟨fuel, hres⟩ := loop_run (w := w) (s := s) (e := e)
    (Mw w (initState s)) (initState s) (inv_init s e) (Nat.le_refl _)
  rcases hres with ⟨stb, pr0, rest, hloop, hinvb, hps⟩ |
    ⟨stx, hloop, hinvx, hempx⟩
  · exfalso
    obtain ⟨hmem, _, _⟩ := pop_facts hps
    obtain ⟨ce, hce, _⟩ := hinvb.frontierPr pr0 e hmem
    obtain ⟨m, _, hch⟩ := hinvb.costLB e ce hce
    exact hnch m hch
  · have hcost_none : dlookup stx.cost e = none := by
      cases hc : dlookup stx.cost e with
      | none => rfl
      | some c =>
        obtain ⟨m, _, hch⟩ := hinvx.costLB e c hc
        exact absurd hch (hnch m)
    have hpar_none : dlookup stx.parent e = none := by
      cases hp : dlookup stx.parent e with
      | none => rfl
      | some v =>
        have h2 := (hinvx.keysEq e).mpr (by simp [hp])
        rw [hcost_none] at h2
        exact absurd h2 (by simp)
    have hne_s : e ≠ s := by
      intro hh
      apply hnch 0
      rw [hh]
      exact IsChain.nil s
    refine ⟨max fuel 1, ?_⟩
    have hloop' := loop_fuel_mono fuel _ _ hloop (by simp) (max fuel 1)
      (Nat.le_max_left _ _)
    exact a_star_of_exhausted_noPath hloop'
      (recLoop_noPath hne_s hpar_none (Nat.le_max_right _ _))

/-- C8: on a finite grid, for any start and end inside it, the main loop
terminates after finitely many iterations, by popping the goal (`broke`) or
by emptying the frontier (`exhausted`). -/
theorem loop_terminates {w : World} {s e : Vector2} (_hwf : w.wf)
    (_hs_in : w.point_inside s = true) (_he_in : w.point_inside e = true) :
    ∃ (fuel : Nat) (st' : SState),
      loop w e fuel (initState s) = .broke st' ∨
      loop w e fuel (initState s) = .exhausted st' := by
  obtain ⟨fuel, hres⟩ := loop_run (w := w) (s := s) (e := e)
    (Mw w (initState s)) (initState s) (inv_init s e) (Nat.le_refl _)
  rcases hres with ⟨stb, pr0, rest, hl, _, _⟩ | ⟨stx, hl, _, _⟩
  · exact ⟨fuel, _, Or.inl hl⟩
  · exact ⟨fuel, _, Or.inr hl⟩

/-- C4: for any grid and any in-bounds passable cell `c`, `a_star(c, c, w)`
returns exactly the single-element list `[c]`: the first pop is the goal, the
loop breaks immediately, and reconstruction stops at once. -/
theorem astar_self {w : World} {c : Vector2} {fuel : Nat} (_hwf : w.wf)
    (_hin : w.point_inside c = true) (_hpass : w.is_empty c = some true)
    (hf : 1 ≤ fuel) :
    a_star fuel c c w = .path [some c] := by
  obtain ⟨f, rfl⟩ : ∃ f, fuel = f + 1 := ⟨fuel - 1, by omega⟩
  have hps : psort (initState c).frontier.data = [(0, c)] := rfl
  have hloop : loop w c (f + 1) (initState c) =
      .broke { initState c with frontier := ⟨[]⟩ } := by
    rw [loop_succ_pop hps]
    simp
  have hrec : recLoop ({ initState c with frontier := ⟨[]⟩ } : SState).parent c
      (f + 1) (some c) [] = .ok [] := by
    simp [recLoop]
  rw [a_star_of_broke_ok hloop hrec]
  simp

/-- C9: replaying the directional encoder's letters (`R`: x+1, `L`: x-1,
`D`: y+1, `U`: y-1) one step at a time from the first cell of any path
`a_star` returns reproduces exactly that path. -/
theorem astar_encode_roundtrip {w : World} {s e : Vector2} {fuel : Nat}
    {ps : List (Option Vector2)} (_hwf : w.wf)
    (h : a_star fuel s e w = .path ps) :
    ∃ (pv : List Vector2) (a : Vector2) (tl : List Vector2),
      ps = pv.map some ∧ pv = a :: tl ∧ replay a (encodePath pv) = pv := by
  unfold a_star at h
  cases hloop : loop w e fuel (initState s) with
  | fuelOut => rw [hloop] at h; exact absurd h (by simp)
  | keyErr => rw [hloop] at h; exact absurd h (by simp)
  | broke st' =>
    rw [hloop] at h
    have h2 : (match recLoop st'.parent s fuel (some e) [] with
        | RecRes.fuelOut => AStarRes.fuelOut
        | RecRes.noPath => AStarRes.noPath
        | RecRes.ok acc => AStarRes.path ((some e :: acc).reverse)) =
        AStarRes.path ps := h
    obtain ⟨stI, hinvI, hparI, _⟩ :=
      loop_inv_transport fuel _ _ (inv_init s e) (Or.inl hloop)
    cases hrec : recLoop st'.parent s fuel (some e) [] with
    | fuelOut => rw [hrec] at h2; exact absurd h2 (by simp)
    | noPath => rw [hrec] at h2; exact absurd h2 (by simp)
    | ok acc =>
      rw [hrec] at h2
      injection h2 with h3
      rw [hparI] at hrec
      obtain ⟨l, hpl, hres⟩ := recLoop_ok_chain fuel (some e) [] acc hrec e rfl
      simp only [List.nil_append] at hres
      subst hres
      have hadj := pchain_adjacent hinvI hpl
      have hchain : List.Chain'
          (fun a b => cartesian_distance a b = 1) ((e :: l).reverse) := by
        rw [List.chain'_reverse]
        refine List.Chain'.imp ?_ hadj
        intro a b hab
        exact mem_neighbours_dist hab
      cases hpv : (e :: l).reverse with
      | nil => exact absurd hpv (by simp)
      | cons a tl =>
        refine ⟨(e :: l).reverse, a, tl, ?_, hpv, ?_⟩
        · rw [← h3]
          simp [List.map_reverse]
        · rw [hpv] at hchain ⊢
          exact replay_encodePath tl a hchain
  | exhausted st' =>
    rw [hloop] at h
    have h2 : (match recLoop st'.parent s fuel (some e) [] with
        | RecRes.fuelOut => AStarRes.fuelOut
        | RecRes.noPath => AStarRes.noPath
        | RecRes.ok acc => AStarRes.path ((some e :: acc).reverse)) =
        AStarRes.path ps := h
    obtain ⟨stI, hinvI, hparI, _⟩ :=
      loop_inv_transport fuel _ _ (inv_init s e) (Or.inr hloop)
    cases hrec : recLoop st'.parent s fuel (some e) [] with
    | fuelOut => rw [hrec] at h2; exact absurd h2 (by simp)
    | noPath => rw [hrec] at h2; exact absurd h2 (by simp)
    | ok acc =>
      rw [hrec] at h2
      injection h2 with h3
      rw [hparI] at hrec
      obtain ⟨l, hpl, hres⟩ := recLoop_ok_chain fuel (some e) [] acc hrec e rfl
      simp only [List.nil_append] at hres
      subst hres
      have hadj := pchain_adjacent hinvI hpl
      have hchain : List.Chain'
          (fun a b => cartesian_distance a b = 1) ((e :: l).reverse) := by
        rw [List.chain'_reverse]
        refine List.Chain'.imp ?_ hadj
        intro a b hab
        exact mem_neighbours_dist hab
      cases hpv : (e :: l).reverse with
      | nil => exact absurd hpv (by simp)
      | cons a tl =>
        refine ⟨(e :: l).reverse, a, tl, ?_, hpv, ?_⟩
        · rw [← h3]
          simp [List.map_reverse]
        · rw [hpv] at hchain ⊢
          exact replay_encodePath tl a hchain

/-! ## Witnesses on concrete grids -/

/-- Witness for C1 on the 1×2 open grid: the shortest route from (0,0) to
(1,0) has one edge, and `a_star` returns a two-cell path. -/
theorem astar_shortest_witness :
    (World.mk [["0", "0"]]).wf ∧
    (World.mk [["0", "0"]]).point_inside ⟨0, 0⟩ = true ∧
    (World.mk [["0", "0"]]).is_empty ⟨0, 0⟩ = some true ∧
    (World.mk [["0", "0"]]).point_inside ⟨1, 0⟩ = true ∧
    (World.mk [["0", "0"]]).is_empty ⟨1, 0⟩ = some true ∧
    IsChain (World.mk [["0", "0"]]) ⟨0, 0⟩ ⟨1, 0⟩ 1 ∧
    (∀ m, IsChain (World.mk [["0", "0"]]) ⟨0, 0⟩ ⟨1, 0⟩ m → 1 ≤ m) ∧
    (∃ (F : Nat) (ps : List Vector2),
      a_star F ⟨0, 0⟩ ⟨1, 0⟩ (World.mk [["0", "0"]]) = .path (ps.map some) ∧
      ps.length = 1 + 1) := by
  have hch : IsChain (World.mk [["0", "0"]]) ⟨0, 0⟩ ⟨1, 0⟩ 1 :=
    IsChain.cons (by decide) (IsChain.nil _)
  have hmin : ∀ m, IsChain (World.mk [["0", "0"]]) ⟨0, 0⟩ ⟨1, 0⟩ m → 1 ≤ m := by
    intro m hm
    cases m with
    | zero => exact absurd (chain_zero hm) (by decide)
    | succ k => omega
  exact ⟨by decide, by decide, by decide, by decide, by decide, hch, hmin,
    astar_shortest (by decide) (by decide) (by decide) (by decide) (by decide)
      hch hmin⟩

/-- Witness for C2 on the 1×2 open grid. -/
theorem astar_path_props_witness :
    (World.mk [["0", "0"]]).wf ∧
    (World.mk [["0", "0"]]).point_inside ⟨0, 0⟩ = true ∧
    (World.mk [["0", "0"]]).is_empty ⟨0, 0⟩ = some true ∧
    (World.mk [["0", "0"]]).point_inside ⟨1, 0⟩ = true ∧
    (World.mk [["0", "0"]]).is_empty ⟨1, 0⟩ = some true ∧
    IsChain (World.mk [["0", "0"]]) ⟨0, 0⟩ ⟨1, 0⟩ 1 ∧
    (∃ (F : Nat) (ps : List Vector2),
      a_star F ⟨0, 0⟩ ⟨1, 0⟩ (World.mk [["0", "0"]]) = .path (ps.map some) ∧
      ps.head? = some ⟨0, 0⟩ ∧ ps.getLast? = some ⟨1, 0⟩ ∧
      List.Chain' (fun a b => cartesian_distance a b = 1) ps ∧ ps.Nodup) := by
  have hch : IsChain (World.mk [["0", "0"]]) ⟨0, 0⟩ ⟨1, 0⟩ 1 :=
    IsChain.cons (by decide) (IsChain.nil _)
  exact ⟨by decide, by decide, by decide, by decide, by decide, hch,
    astar_path_props (by decide) (by decide) (by decide) (by decide) (by decide)
      hch⟩

/-- Witness for C3 on the 1×3 grid `0 1 0`: the wall at (1,0) separates
(0,0) from (2,0), and `a_star` reports "no path". -/
theorem astar_noPath_witness :
    (World.mk [["0", "1", "0"]]).wf ∧
    (∀ n, ¬ IsChain (World.mk [["0", "1", "0"]]) ⟨0, 0⟩ ⟨2, 0⟩ n) ∧
    (∃ F, a_star F ⟨0, 0⟩ ⟨2, 0⟩ (World.mk [["0", "1", "0"]]) = .noPath) := by
  have hnch : ∀ n, ¬ IsChain (World.mk [["0", "1", "0"]]) ⟨0, 0⟩ ⟨2, 0⟩ n := by
    intro n h
    cases n with
    | zero => exact absurd (chain_zero h) (by decide)
    | succ k =>
      cases h with
      | cons hab h' =>
        have hnb : (World.mk [["0", "1", "0"]]).neighbours ⟨0, 0⟩ = [] := by
          decide
        rw [hnb] at hab
        exact absurd hab (List.not_mem_nil _)
  exact ⟨by decide, hnch, astar_noPath (by decide) hnch⟩

/-- Witness for C4 on the 1×2 open grid at its first cell. -/
theorem astar_self_witness :
    (World.mk [["0", "0"]]).wf ∧
    (World.mk [["0", "0"]]).point_inside ⟨0, 0⟩ = true ∧
    (World.mk [["0", "0"]]).is_empty ⟨0, 0⟩ = some true ∧
    1 ≤ 1 ∧
    a_star 1 ⟨0, 0⟩ ⟨0, 0⟩ (World.mk [["0", "0"]]) = .path [some ⟨0, 0⟩] :=
  ⟨by decide, by decide, by decide, Nat.le_refl 1,
    astar_self (by decide) (by decide) (by decide) (Nat.le_refl 1)⟩

/-- Witness for C7 on a full run over the 1×2 open grid. -/
theorem loop_costMono_witness :
    (loop (World.mk [["0", "0"]]) ⟨1, 0⟩ 5 (initState ⟨0, 0⟩) =
        .broke ⟨⟨[]⟩, [(⟨0, 0⟩, none), (⟨1, 0⟩, some ⟨0, 0⟩)],
          [(⟨0, 0⟩, 0), (⟨1, 0⟩, 1)]⟩ ∨
      loop (World.mk [["0", "0"]]) ⟨1, 0⟩ 5 (initState ⟨0, 0⟩) =
        .exhausted ⟨⟨[]⟩, [(⟨0, 0⟩, none), (⟨1, 0⟩, some ⟨0, 0⟩)],
          [(⟨0, 0⟩, 0), (⟨1, 0⟩, 1)]⟩) ∧
    CostMono (initState ⟨0, 0⟩).cost
      (SState.mk ⟨[]⟩ [(⟨0, 0⟩, none), (⟨1, 0⟩, some ⟨0, 0⟩)]
        [(⟨0, 0⟩, 0), (⟨1, 0⟩, 1)]).cost := by
  have hrun : loop (World.mk [["0", "0"]]) ⟨1, 0⟩ 5 (initState ⟨0, 0⟩) =
      .broke ⟨⟨[]⟩, [(⟨0, 0⟩, none), (⟨1, 0⟩, some ⟨0, 0⟩)],
        [(⟨0, 0⟩, 0), (⟨1, 0⟩, 1)]⟩ := by rfl
  exact ⟨Or.inl hrun, loop_costMono 5 _ _ (Or.inl hrun)⟩

/-- Witness for C8 on the 1×2 open grid. -/
theorem loop_terminates_witness :
    (World.mk [["0", "0"]]).wf ∧
    (World.mk [["0", "0"]]).point_inside ⟨0, 0⟩ = true ∧
    (World.mk [["0", "0"]]).point_inside ⟨1, 0⟩ = true ∧
    (∃ (fuel : Nat) (st' : SState),
      loop (World.mk [["0", "0"]]) ⟨1, 0⟩ fuel (initState ⟨0, 0⟩) =
        .broke st' ∨
      loop (World.mk [["0", "0"]]) ⟨1, 0⟩ fuel (initState ⟨0, 0⟩) =
        .exhausted st') :=
  ⟨by decide, by decide, by decide,
    loop_terminates (by decide) (by decide) (by decide)⟩

/-- Witness for C9 on the concrete two-cell path of the 1×2 open grid. -/
theorem astar_encode_roundtrip_witness :
    (World.mk [["0", "0"]]).wf ∧
    a_star 5 ⟨0, 0⟩ ⟨1, 0⟩ (World.mk [["0", "0"]]) =
      .path [some ⟨0, 0⟩, some ⟨1, 0⟩] ∧
    (∃ (pv : List Vector2) (a : Vector2) (tl : List Vector2),
      [some (⟨0, 0⟩ : Vector2), some ⟨1, 0⟩] = pv.map some ∧ pv = a :: tl ∧
      replay a (encodePath pv) = pv) := by
  have hres : a_star 5 ⟨0, 0⟩ ⟨1, 0⟩ (World.mk [["0", "0"]]) =
      .path [some ⟨0, 0⟩, some ⟨1, 0⟩] := by rfl
  exact ⟨by decide, hres, astar_encode_roundtrip (by decide) hres⟩

end RobotPlanner
